import Mathlib

/-!
Shallow embedding of the TIRE indoor-navigation engine
(`src/tire-lib`, `src/app/main.cpp`) over the real numbers, together with
proofs settling the claims about it.  C++ `double` values are modelled as
`ℝ`, `std::string` as `String`, `std::map` as association lists queried
through `mfind`/`massign` (lookup and insert-or-assign mirror
`std::map::find` and `operator[]`/assignment; the physical ordering of an
association list is irrelevant to every lookup), and `std::vector` as
`List`.  All numeric definitions are noncomputable exactly because the
source computes with floating point; every concrete evaluation in a proof
is done symbolically with `simp`/`norm_num`.
-/

noncomputable section

open Real

/-- Classical decidability as a lowest-priority fallback instance:
computable instances (such as string equality) keep winning, so concrete
map lookups still evaluate, while comparisons of reals become decidable
for the `if` statements of the source. -/
instance (priority := 0) classicalFallback (p : Prop) : Decidable p :=
  Classical.propDecidable p

/-! ## Association-list counterparts of `std::map` operations -/

/-- Counterpart of `std::map::find` followed by dereference: the value
stored under key `k`, if present. -/
def mfind {β : Type} (m : List (String × β)) (k : String) : Option β :=
  match m with
  | [] => none
  | p :: rest => if p.1 = k then some p.2 else mfind rest k

/-- Counterpart of `map[k] = v` (insert-or-assign). -/
def massign {β : Type} (m : List (String × β)) (k : String) (v : β) :
    List (String × β) :=
  match m with
  | [] => [(k, v)]
  | p :: rest => if p.1 = k then (k, v) :: rest else p :: massign rest k v

/-- Counterpart of reading `map[k]` with `operator[]`: if the key is
missing it is inserted with the value-initialized default `d`, and the
(possibly grown) map is returned together with the value read. -/
def mgetOrInsert {β : Type} (m : List (String × β)) (k : String) (d : β) :
    β × List (String × β) :=
  match mfind m k with
  | some v => (v, m)
  | none => (d, m ++ [(k, d)])

/-! ## Shared geometry -/

/-- `Position2D` from `BLEFingerprinting.h`. -/
structure Position2D where
  x : ℝ
  y : ℝ

/-- The C library function `std::atan2 y x`, modelled as the argument of
the complex number `x + y·i`; its value lies in `(-π, π]` and agrees with
the two-argument arctangent on every quadrant. -/
def atan2 (y x : ℝ) : ℝ := Complex.arg ⟨x, y⟩

/-- The EKF's heading normalization `std::atan2 (sin θ) (cos θ)`. -/
def wrapAngle (θ : ℝ) : ℝ := atan2 (Real.sin θ) (Real.cos θ)

/-! ## BLE fingerprint localizer (`BLEFingerprinting.cpp`) -/

/-- `interfaces::BLEBeaconData`. -/
structure BLEBeaconData where
  id : String
  rssi : ℤ

/-- `RPFingerprint` from `BLEFingerprinting.h`. -/
structure RPFingerprint where
  rp_id : String
  position : Position2D
  signal_strengths : List (String × ℤ)

/-- Helper struct `Neighbor` from `BLEFingerprinting.cpp`. -/
structure Neighbor where
  distance : ℝ
  position : Position2D

/-- `BLEFingerpinting::calculate_fingerprint_distance`: Euclidean distance
between two RSSI maps over the union of their beacon ids, missing entries
imputed with the penalty `-100`. -/
def calculate_fingerprint_distance (scan_a scan_b : List (String × ℤ)) : ℝ :=
  let all_beacon_ids := ((scan_a.map Prod.fst) ++ (scan_b.map Prod.fst)).dedup
  let sum_of_squares := all_beacon_ids.foldl
    (fun acc id =>
      let rssi_a := (mfind scan_a id).getD (-100)
      let rssi_b := (mfind scan_b id).getD (-100)
      acc + ((rssi_a - rssi_b : ℤ) : ℝ) ^ 2) 0
  Real.sqrt sum_of_squares

/-- The member `k` stored by the constructor `BLEFingerpinting(int k)`.
The initializer list `: k(k)` copies the raw parameter into the member;
inside the constructor body the identifier `k` names the parameter, which
shadows the member, so the clamp `if (k < 1) k = 1;` mutates only the
parameter and the stored member keeps the unclamped argument. -/
def bleStoredK (k : ℤ) : ℤ := k

/-- `BLEFingerpinting::load_map`: the hard-coded placeholder radio map
(three reference points along a hallway). -/
def placeholderMap : List RPFingerprint :=
  [ { rp_id := "RP_HALLWAY_START", position := ⟨0, 0⟩,
      signal_strengths := [("BEACON_ID_1", -50), ("BEACON_ID_2", -80), ("BEACON_ID_3", -90)] },
    { rp_id := "RP_HALLWAY_MIDDLE", position := ⟨0, 5⟩,
      signal_strengths := [("BEACON_ID_1", -65), ("BEACON_ID_2", -65), ("BEACON_ID_3", -85)] },
    { rp_id := "RP_HALLWAY_END", position := ⟨0, 10⟩,
      signal_strengths := [("BEACON_ID_1", -90), ("BEACON_ID_2", -50), ("BEACON_ID_3", -80)] } ]

/-- `BLEFingerpinting::find_closest_position`, with the stored `k` and the
loaded `fingerprint_map` made explicit.  `std::sort` on `Neighbor` uses
`operator<` (compare by `distance`); it is modelled by an insertion sort
over the same strict comparison, which produces a sorted permutation just
as `std::sort` does. -/
def find_closest_position (k : ℤ) (fingerprint_map : List RPFingerprint)
    (current_scan : List BLEBeaconData) : Position2D :=
  if fingerprint_map = [] then ⟨0, 0⟩
  else
    let current_scan_map :=
      current_scan.foldl (fun m b => massign m b.id b.rssi) []
    let neighbors := fingerprint_map.map fun known_rp =>
      Neighbor.mk (calculate_fingerprint_distance current_scan_map known_rp.signal_strengths)
        known_rp.position
    let sorted := List.insertionSort (fun a b : Neighbor => a.distance < b.distance) neighbors
    let neighbors_to_average : ℤ := min (sorted.length : ℤ) k
    if neighbors_to_average = 0 then ⟨0, 0⟩
    else
      let top := sorted.take neighbors_to_average.toNat
      let sum_x := top.foldl (fun s n => s + n.position.x) 0
      let sum_y := top.foldl (fun s n => s + n.position.y) 0
      ⟨sum_x / (neighbors_to_average : ℝ), sum_y / (neighbors_to_average : ℝ)⟩

/-- Spec-side notion used by the claims: `rp` is the strictly unique
nearest reference point of the map for the given (already converted) live
scan. -/
def IsUniqueNearestRP (scan_map : List (String × ℤ)) (m : List RPFingerprint)
    (rp : RPFingerprint) : Prop :=
  rp ∈ m ∧ ∀ rp2 ∈ m, rp2 ≠ rp →
    calculate_fingerprint_distance scan_map rp.signal_strengths <
      calculate_fingerprint_distance scan_map rp2.signal_strengths

/-! ## Pedestrian dead reckoning (`PDR.cpp`) -/

/-- `PDRState` from `PDR.h`. -/
structure PDRState where
  step_length : ℝ
  delta_heading : ℝ
  step_detected : Bool

/-- The private member variables of class `PDR`. -/
structure PDR where
  previous_acceleration_magnitude : ℝ
  is_peak : Bool
  step_threshold : ℝ
  current_heading : ℝ
  accumulated_delta_heading : ℝ
  new_step_detected : Bool
  last_step_length : ℝ

/-- The literal `TWO_PI = 2.0 * 3.1415926535` from `PDR.cpp` (the source
uses a decimal literal, not the exact π). -/
def TWO_PI_LIT : ℝ := 2.0 * 3.1415926535

/-- The `PDR` default constructor. -/
def PDR.ctor : PDR :=
  { previous_acceleration_magnitude := 0
    is_peak := false
    step_threshold := 1.1 * 9.81
    current_heading := 0
    accumulated_delta_heading := 0
    new_step_detected := false
    last_step_length := 0 }

/-- `PDR::initialize` (renamed: the embedding avoids that identifier). -/
def PDR.initState (s : PDR) : PDR :=
  { s with
    previous_acceleration_magnitude := 9.81
    is_peak := false
    current_heading := 0
    accumulated_delta_heading := 0
    new_step_detected := false
    last_step_length := 0 }

/-- `interfaces::IMUData`. -/
structure IMUData where
  acceleration_x : ℝ
  acceleration_y : ℝ
  acceleration_z : ℝ
  gyroscope_x : ℝ
  gyroscope_y : ℝ
  gyroscope_z : ℝ

/-- `PDR::update_heading`. -/
def PDR.update_heading (s : PDR) (gyroscope_z delta_time : ℝ) : PDR :=
  let delta_theta := gyroscope_z * delta_time
  let accumulated := s.accumulated_delta_heading + delta_theta
  let heading := s.current_heading + delta_theta
  let heading :=
    if heading > TWO_PI_LIT then heading - TWO_PI_LIT
    else if heading < 0 then heading + TWO_PI_LIT
    else heading
  { s with accumulated_delta_heading := accumulated, current_heading := heading }

/-- `PDR::detect_step`: returns the `step_found` flag and the state with
`previous_acceleration_magnitude` (and possibly `is_peak`) updated. -/
def PDR.detect_step (s : PDR) (imu_data : IMUData) : Bool × PDR :=
  let accel_mag0 := Real.sqrt (imu_data.acceleration_x ^ 2 +
    imu_data.acceleration_y ^ 2 + imu_data.acceleration_z ^ 2)
  let accel_mag := 0.8 * s.previous_acceleration_magnitude + 0.2 * accel_mag0
  if s.is_peak = false then
    if accel_mag > s.step_threshold then
      (false, { s with is_peak := true, previous_acceleration_magnitude := accel_mag })
    else
      (false, { s with previous_acceleration_magnitude := accel_mag })
  else
    if accel_mag < s.previous_acceleration_magnitude then
      (true, { s with is_peak := false, previous_acceleration_magnitude := accel_mag })
    else
      (false, { s with previous_acceleration_magnitude := accel_mag })

/-- `PDR::estimate_step_length` (the IMU argument is unused by the code;
`previous_acceleration_magnitude` holds the freshly detected peak). -/
def PDR.estimate_step_length (s : PDR) : ℝ :=
  let max_accel := s.previous_acceleration_magnitude
  let min_accel : ℝ := 9.81
  let max_accel := if max_accel < min_accel then min_accel + 0.1 else max_accel
  let diff := max_accel - min_accel
  let estimated_length := 0.45 * diff ^ (0.25 : ℝ)
  let estimated_length := if estimated_length < 0.3 then 0.3 else estimated_length
  if estimated_length > 1.0 then 1.0 else estimated_length

/-- `PDR::process_IMU_data`. -/
def PDR.process_IMU_data (s : PDR) (imu_data : IMUData) (delta_time : ℝ) : PDR :=
  let s1 := s.update_heading imu_data.gyroscope_z delta_time
  let fed := s1.detect_step imu_data
  if fed.1 then
    { fed.2 with new_step_detected := true, last_step_length := fed.2.estimate_step_length }
  else fed.2

/-- The step-confirmation test performed inside one `process_IMU_data`
call: the value of `detect_step` on the state as it stands when
`process_IMU_data` invokes it (after `update_heading`). -/
def PDR.stepConfirmed (s : PDR) (imu_data : IMUData) (delta_time : ℝ) : Bool :=
  ((s.update_heading imu_data.gyroscope_z delta_time).detect_step imu_data).1

/-- `PDR::get_pdr_update`: the returned snapshot and the drained state. -/
def PDR.get_pdr_update (s : PDR) : PDRState × PDR :=
  (⟨s.last_step_length, s.accumulated_delta_heading, s.new_step_detected⟩,
    { s with new_step_detected := false, last_step_length := 0,
             accumulated_delta_heading := 0 })

/-! ## Extended Kalman filter (`EKF.cpp`) -/

/-- The private members of class `EKF`: state vector `x = [px, py, θ]` and
covariance `P` (the constant matrices `Q` and `R` are set once by the
constructor and never written again, so they are modelled as the constants
`EKFQ`/`EKFR` below). -/
structure EKF where
  x : Fin 3 → ℝ
  P : Matrix (Fin 3) (Fin 3) ℝ

/-- Process noise `Q` as set by the `EKF` constructor. -/
def EKFQ : Matrix (Fin 3) (Fin 3) ℝ := !![0.1, 0, 0; 0, 0.1, 0; 0, 0, 0.05]

/-- Measurement noise `R` as set by the `EKF` constructor. -/
def EKFR : Matrix (Fin 2) (Fin 2) ℝ := !![2.0, 0; 0, 2.0]

/-- Measurement matrix `H` built inside `EKF::update`. -/
def EKFH : Matrix (Fin 2) (Fin 3) ℝ := !![1, 0, 0; 0, 1, 0]

/-- The `EKF` constructor: `x` zeroed, `P` identity. -/
def EKF.ctor : EKF := ⟨![0, 0, 0], 1⟩

/-- `EKF::initialize` (renamed: the embedding avoids that identifier):
sets `x` and resets `P` to the identity. -/
def EKF.initPose (_s : EKF) (start_x start_y start_theta : ℝ) : EKF :=
  ⟨![start_x, start_y, start_theta], 1⟩

/-- `EKF::predict`. -/
def EKF.predict (s : EKF) (pdr_state : PDRState) : EKF :=
  if pdr_state.step_detected = false then
    if |pdr_state.delta_heading| > 0.001 then
      { s with x := ![s.x 0, s.x 1, wrapAngle (s.x 2 + pdr_state.delta_heading)] }
    else s
  else
    let step_len := pdr_state.step_length
    let d_theta := pdr_state.delta_heading
    let theta := s.x 2
    let mid_theta := theta + d_theta / 2
    let x0 := s.x 0 + step_len * Real.cos mid_theta
    let x1 := s.x 1 + step_len * Real.sin mid_theta
    let x2 := wrapAngle (theta + d_theta)
    let F : Matrix (Fin 3) (Fin 3) ℝ :=
      !![1, 0, -step_len * Real.sin mid_theta;
         0, 1, step_len * Real.cos mid_theta;
         0, 0, 1]
    ⟨![x0, x1, x2], F * s.P * F.transpose + EKFQ⟩

/-- Eigen's fixed-size 2×2 `.inverse()`: the cofactor formula divided by
the determinant (applied unconditionally by the source, with no
invertibility check). -/
def eigenInverse2 (S : Matrix (Fin 2) (Fin 2) ℝ) : Matrix (Fin 2) (Fin 2) ℝ :=
  (S 0 0 * S 1 1 - S 0 1 * S 1 0)⁻¹ • !![S 1 1, -(S 0 1); -(S 1 0), S 0 0]

/-- The innovation covariance `S = H·P·Hᵀ + R` computed by `EKF::update`. -/
def EKF.innovationCov (s : EKF) : Matrix (Fin 2) (Fin 2) ℝ :=
  EKFH * s.P * EKFH.transpose + EKFR

/-- `EKF::update`: the Kalman correction, applied unconditionally (the
source contains no branch that drops a measurement). -/
def EKF.update (s : EKF) (ble_position : Position2D) : EKF :=
  let z : Fin 2 → ℝ := ![ble_position.x, ble_position.y]
  let y := z - EKFH.mulVec s.x
  let S := s.innovationCov
  let K := s.P * EKFH.transpose * eigenInverse2 S
  ⟨s.x + K.mulVec y, (1 - K * EKFH) * s.P⟩

/-! ## Navigation graph (`NavigationGraph.cpp`) -/

/-- `GraphNode` (declared in the repository's `NavigationGraph.h`; fields
as populated by `NavigationGraph::load_from_json` and read by the other
components). -/
structure GraphNode where
  id : String
  name : String
  audio_file : String
  position : Position2D
  neighbors : List (String × ℝ)

/-- The `nodes` member of `NavigationGraph`: an id-keyed map. -/
abbrev NavigationGraph := List (String × GraphNode)

/-- `NavigationGraph::get_node`. -/
def getNode (g : NavigationGraph) (id : String) : Option GraphNode :=
  mfind g id

/-- `NavigationGraph::get_distance`: Euclidean distance between two nodes,
`-1` as the missing-node sentinel. -/
def getDistance (g : NavigationGraph) (id_a id_b : String) : ℝ :=
  match getNode g id_a, getNode g id_b with
  | some a, some b =>
      Real.sqrt ((a.position.x - b.position.x) ^ 2 + (a.position.y - b.position.y) ^ 2)
  | _, _ => -1

/-- One array entry of the map document, with the values that
`load_from_json` extracts from it: `item.value("id","")`,
`item.value("name","Unknown")`, `item.value("audio","")`,
`item.value("x",0.0)`, `item.value("y",0.0)` and the parsed `neighbors`
object.  File I/O and JSON tokenization sit outside the core and are not
modelled; a document is its parsed list of node entries. -/
structure JsonNodeItem where
  id : String
  name : String
  audio : String
  x : ℝ
  y : ℝ
  neighbors : List (String × ℝ)

/-- The semantic part of `NavigationGraph::load_from_json` (after the file
has been opened and parsed): clears `nodes`, stores every entry under its
id with `nodes[node.id] = node`, and returns `true`. -/
def load_from_json (doc : List JsonNodeItem) : Bool × NavigationGraph :=
  let nodes := doc.foldl
    (fun m item =>
      let node : GraphNode :=
        ⟨item.id, item.name, item.audio, ⟨item.x, item.y⟩, item.neighbors⟩
      massign m node.id node) []
  (true, nodes)

/-- The well-formedness conditions of the claim on graph documents: unique
node ids, neighbor keys resolving to node ids of the document, and
non-negative edge costs. -/
def GraphDocWellFormed (doc : List JsonNodeItem) : Prop :=
  (doc.map JsonNodeItem.id).Nodup ∧
  (∀ item ∈ doc, ∀ p ∈ item.neighbors, p.1 ∈ doc.map JsonNodeItem.id) ∧
  (∀ item ∈ doc, ∀ p ∈ item.neighbors, 0 ≤ p.2)

/-! ## Announcer (`Announcer.cpp`) -/

/-- Free function `normalize_angle`, first loop: `while (angle > M_PI)
angle -= 2.0 * M_PI;`. -/
def normAngleDown (angle : ℝ) : ℝ :=
  if angle > Real.pi then normAngleDown (angle - 2 * Real.pi) else angle
termination_by (⌈(angle - Real.pi) / (2 * Real.pi)⌉).toNat
decreasing_by
  rename_i h
  have hπ : 0 < Real.pi := Real.pi_pos
  have key : (angle - 2 * Real.pi - Real.pi) / (2 * Real.pi)
      = (angle - Real.pi) / (2 * Real.pi) - 1 := by
    field_simp
    ring
  rw [key]
  have hceil : ⌈(angle - Real.pi) / (2 * Real.pi) - 1⌉
      = ⌈(angle - Real.pi) / (2 * Real.pi)⌉ - 1 := by
    have h2 := Int.ceil_sub_int ((angle - Real.pi) / (2 * Real.pi)) 1
    simpa using h2
  have hpos : 0 < ⌈(angle - Real.pi) / (2 * Real.pi)⌉ := by
    apply Int.ceil_pos.mpr
    exact div_pos (by linarith) (by linarith)
  rw [hceil]
  omega

/-- Free function `normalize_angle`, second loop: `while (angle < -M_PI)
angle += 2.0 * M_PI;`. -/
def normAngleUp (angle : ℝ) : ℝ :=
  if angle < -Real.pi then normAngleUp (angle + 2 * Real.pi) else angle
termination_by (⌈(-angle - Real.pi) / (2 * Real.pi)⌉).toNat
decreasing_by
  rename_i h
  have hπ : 0 < Real.pi := Real.pi_pos
  have key : (-(angle + 2 * Real.pi) - Real.pi) / (2 * Real.pi)
      = (-angle - Real.pi) / (2 * Real.pi) - 1 := by
    field_simp
    ring
  rw [key]
  have hceil : ⌈(-angle - Real.pi) / (2 * Real.pi) - 1⌉
      = ⌈(-angle - Real.pi) / (2 * Real.pi)⌉ - 1 := by
    have h2 := Int.ceil_sub_int ((-angle - Real.pi) / (2 * Real.pi)) 1
    simpa using h2
  have hpos : 0 < ⌈(-angle - Real.pi) / (2 * Real.pi)⌉ := by
    apply Int.ceil_pos.mpr
    exact div_pos (by linarith) (by linarith)
  rw [hceil]
  omega

/-- Free function `normalize_angle` from `Announcer.cpp`. -/
def normalize_angle (angle : ℝ) : ℝ := normAngleUp (normAngleDown angle)

/-- The state members of class `Announcer`.  `last_announcement_time` is a
`steady_clock::time_point`, modelled as a real instant (the default
`time_point()` is the epoch `0`). -/
structure Announcer where
  next_node_index : ℤ
  destination_reached : Bool
  last_announcement_time : ℝ

/-- The `Announcer` constructor (`last_announcement_time` is set to the
construction instant, passed here as `now`). -/
def Announcer.ctor (now : ℝ) : Announcer :=
  { next_node_index := 1, destination_reached := false, last_announcement_time := now }

/-- `Announcer::reset`. -/
def Announcer.reset (a : Announcer) : Announcer :=
  { a with next_node_index := 1, destination_reached := false }

/-- `Announcer::update`.  Inputs: the pose, the active path, the graph and
the current instant `now` (`steady_clock::now()`); result: the returned
index, the successor state, and the list of audio cues played through the
hardware port.  The comparison `next_node_index >= current_path.size()`
converts the `int` index to `size_t`, so a negative index also satisfies
it; reading `current_path[next_node_index]` is guarded by that branch. -/
def Announcer.update (a : Announcer) (current_pose : Fin 3 → ℝ)
    (current_path : List String) (graph : NavigationGraph) (now : ℝ) :
    ℤ × Announcer × List String :=
  if current_path = [] ∨ a.destination_reached then (-1, a, [])
  else if a.next_node_index < 0 ∨ (current_path.length : ℤ) ≤ a.next_node_index then
    if a.destination_reached = false then
      (-1, { a with destination_reached := true }, ["destination_reached"])
    else (-1, a, [])
  else
    let user_x := current_pose 0
    let user_y := current_pose 1
    let user_heading := current_pose 2
    let target_id := current_path.getD a.next_node_index.toNat ""
    match getNode graph target_id with
    | none => (-1, a, [])
    | some target_node =>
      let dx := target_node.position.x - user_x
      let dy := target_node.position.y - user_y
      let distance := Real.sqrt (dx * dx + dy * dy)
      if distance < 1.5 then
        let audio :=
          if target_node.audio_file ≠ "" then [target_node.audio_file]
          else ["beep_checkpoint"]
        (a.next_node_index + 1,
          { a with next_node_index := a.next_node_index + 1,
                   last_announcement_time := 0 }, audio)
      else if now - a.last_announcement_time < 3.0 then
        (a.next_node_index, a, [])
      else
        let angle_to_target := atan2 dy dx
        let error := normalize_angle (angle_to_target - user_heading)
        if error > 0.35 then
          (a.next_node_index, { a with last_announcement_time := now }, ["turn_left"])
        else if error < -0.35 then
          (a.next_node_index, { a with last_announcement_time := now }, ["turn_right"])
        else
          (a.next_node_index, a, [])

/-- The announcer states reachable from `reset()` by any sequence of
`update` calls that all pass the same path (poses, graph contents and
clock readings arbitrary). -/
inductive AnnouncerReachable (path : List String) : Announcer → Prop
  | base (a : Announcer) : AnnouncerReachable path (a.reset)
  | step (a : Announcer) (pose : Fin 3 → ℝ) (graph : NavigationGraph) (now : ℝ) :
      AnnouncerReachable path a →
      AnnouncerReachable path (a.update pose path graph now).2.1

/-! ## Main control loop (`main.cpp`), BLE-update events -/

/-- `interfaces::KeyPress`. -/
inductive KeyPress where
  | KEYCODE_COLUMN_1_UP
  | KEYCODE_COLUMN_1_DOWN
  | KEYCODE_COLUMN_2_UP
  | KEYCODE_COLUMN_2_DOWN
  | KEYCODE_COLUMN_3_UP
  | KEYCODE_COLUMN_3_DOWN
  | KEYCODE_COLUMN_4_UP
  | KEYCODE_COLUMN_4_DOWN
  | KEY_START_NAVIGATION
  | KEY_WHERE_AM_I
  | KEY_CURRENT_SELECTION
  | KEY_NONE
deriving DecidableEq

/-- The BLE-derived EKF updates performed by one iteration of the main
loop (`main.cpp` lines 95–167), projected to the two call sites of
`ekf.update(...)` with a localizer fix: the `KEY_WHERE_AM_I` handler
(which updates unconditionally) and the 5-second cadence (which scans
when `ble_timer + dt > 5`, updates only on a non-empty scan, and resets
the timer).  Arguments: the polled key, the `ble_timer` value entering the
tick, `dt`, and whether the cadence's `hw.scan_BLE()` returns a non-empty
scan.  Result: the number of `ekf.update` calls this tick and the
`ble_timer` value leaving the tick.  State mutations that cannot trigger
an `ekf.update` call (PDR, prediction, navigation bookkeeping) are
projected away. -/
def tickBLEUpdates (key : KeyPress) (ble_timer dt : ℝ)
    (scan_nonempty : Bool) : ℕ × ℝ :=
  let keyUpdates : ℕ := if key = KeyPress.KEY_WHERE_AM_I then 1 else 0
  let timer := ble_timer + dt
  if timer > 5.0 then
    (keyUpdates + (if scan_nonempty then 1 else 0), 0)
  else
    (keyUpdates, timer)

/-! ## Pathfinder (`Pathfinder.cpp`)

The A* loop mutates three containers (`open_set`, `came_from`, `g_score`).
`g_score` holds `double` values that start at `+∞`, modelled as
`WithTop ℝ` (whose arithmetic and order agree with IEEE `inf` on the
values that occur: `⊤ + w = ⊤`, `↑a < ⊤`, `¬(⊤ < ⊤)`).  The `while` loop
is embedded as a fuel-indexed recursion; `none` means the fuel ran out
before the loop finished (the termination theorem below produces a
sufficient fuel), and it also marks the one unreachable null-pointer
dereference of the source. -/

/-- Helper struct `NodeScore`. -/
structure NodeScore where
  id : String
  f_score : WithTop ℝ

/-- Extraction of the top of the `std::priority_queue` (a min-heap via
`std::greater`): an entry with the least `f_score`, together with the
remaining entries.  Which entry is popped among ties is unspecified in
the source; the model takes the earliest. -/
def popMin : List NodeScore → Option (NodeScore × List NodeScore)
  | [] => none
  | x :: xs =>
    match popMin xs with
    | none => some (x, [])
    | some (m, rest) => if x.f_score ≤ m.f_score then some (x, xs) else some (m, x :: rest)

/-- The mutable loop state of `Pathfinder::find_path`. -/
structure AStarState where
  open_set : List NodeScore
  came_from : List (String × String)
  g_score : List (String × WithTop ℝ)

/-- The body of the neighbor loop of `Pathfinder::find_path` for a single
adjacency entry `nb` of the node `current_id` whose g-score read before
the loop was `current_g`:
`g_score[neighbor_id]` (an `operator[]` read, inserting `0.0` if absent),
the relaxation test, and on success the `came_from`/`g_score` assignments
and the push of `⟨neighbor_id, tentative_g + h(neighbor_id)⟩`. -/
def relaxNeighbor (graph : NavigationGraph) (target_node_id current_id : String)
    (current_g : WithTop ℝ) (st : AStarState) (nb : String × ℝ) : AStarState :=
  let r := mgetOrInsert st.g_score nb.1 0
  let tentative_g := current_g + (nb.2 : WithTop ℝ)
  if tentative_g < r.1 then
    { open_set := st.open_set ++
        [⟨nb.1, tentative_g + ((getDistance graph nb.1 target_node_id : ℝ) : WithTop ℝ)⟩],
      came_from := massign st.came_from nb.1 current_id,
      g_score := massign r.2 nb.1 tentative_g }
  else
    { st with g_score := r.2 }

/-- The path-reconstruction loop of `Pathfinder::find_path`: while
`came_from` contains the current id, push it and move to its parent;
the accumulator is the `path` vector before the final
`push_back(start_node_id)` and `reverse`. -/
def reconstructWalk : ℕ → List (String × String) → String → List String → Option (List String)
  | 0, _, _, _ => none
  | fuel + 1, cf, current_id, path =>
    match mfind cf current_id with
    | some prev => reconstructWalk fuel cf prev (path ++ [current_id])
    | none => some path

/-- The main A* `while` loop of `Pathfinder::find_path`. -/
def astarLoop (graph : NavigationGraph) (start_node_id target_node_id : String) :
    ℕ → AStarState → Option (List String)
  | 0, _ => none
  | fuel + 1, st =>
    match popMin st.open_set with
    | none => some []
    | some (current, rest) =>
      if current.id = target_node_id then
        match reconstructWalk fuel st.came_from current.id [] with
        | some path => some ((path ++ [start_node_id]).reverse)
        | none => none
      else
        let r := mgetOrInsert st.g_score current.id 0
        match getNode graph current.id with
        | none => none
        | some node =>
          let st2 := node.neighbors.foldl
            (relaxNeighbor graph target_node_id current.id r.1)
            { st with open_set := rest, g_score := r.2 }
          astarLoop graph start_node_id target_node_id fuel st2

/-- `Pathfinder::find_path`: input validation, initialization of
`g_score` (every node id at `+∞`, then `g_score[start] = 0`), the initial
push `⟨start, h(start)⟩`, and the loop. -/
def find_path (graph : NavigationGraph) (start_node_id target_node_id : String)
    (fuel : ℕ) : Option (List String) :=
  if getNode graph start_node_id = none then some []
  else if getNode graph target_node_id = none then some []
  else
    let g0 : List (String × WithTop ℝ) := graph.map fun p => (p.1, ⊤)
    let g1 := massign g0 start_node_id 0
    let h_start := getDistance graph start_node_id target_node_id
    astarLoop graph start_node_id target_node_id fuel
      ⟨[⟨start_node_id, (h_start : WithTop ℝ)⟩], [], g1⟩

/-! ### Vocabulary for the pathfinder claim -/

/-- The cost recorded in the graph for the directed edge `a → b`, if any.
(`std::map` keys are unique, so the association-list lookup is the map
lookup.) -/
def edgeCost (graph : NavigationGraph) (a b : String) : Option ℝ :=
  (getNode graph a).bind fun na => mfind na.neighbors b

/-- Consecutive elements of the list are neighbors in the graph. -/
def IsGraphChain (graph : NavigationGraph) : List String → Prop
  | [] => True
  | [_] => True
  | a :: b :: rest => (edgeCost graph a b).isSome ∧ IsGraphChain graph (b :: rest)

/-- The summed edge costs along the list. -/
def chainCost (graph : NavigationGraph) : List String → ℝ
  | [] => 0
  | [_] => 0
  | a :: b :: rest => (edgeCost graph a b).getD 0 + chainCost graph (b :: rest)

/-- The list is a walk through the graph from `s` to `t`. -/
def IsPathFromTo (graph : NavigationGraph) (p : List String) (s t : String) : Prop :=
  p ≠ [] ∧ p.head? = some s ∧ p.getLast? = some t ∧ IsGraphChain graph p

/-- All costs of walks from `s` to `t`. -/
def walkCosts (graph : NavigationGraph) (s t : String) : Set ℝ :=
  {c | ∃ p, IsPathFromTo graph p s t ∧ chainCost graph p = c}

/-- Walks presented edge by edge (used by the proofs). -/
inductive GWalk (graph : NavigationGraph) : String → String → ℝ → Prop
  | nil (u : String) : GWalk graph u u 0
  | cons (u v t2 : String) (c rest : ℝ) :
      edgeCost graph u v = some c → GWalk graph v t2 rest → GWalk graph u t2 (c + rest)

/-- Graph-level hypotheses of the pathfinder claim: unique node keys and
unique per-node neighbor keys (`std::map` structural facts), non-negative
edge costs, and the admissibility premise of the claim, that every edge
cost dominates the Euclidean distance between its two endpoints (which in
particular makes every neighbor key resolve). -/
structure AStarGraphOK (graph : NavigationGraph) : Prop where
  keysNodup : (graph.map Prod.fst).Nodup
  nbKeysNodup : ∀ nd ∈ graph, (nd.2.neighbors.map Prod.fst).Nodup
  nonneg : ∀ nd ∈ graph, ∀ nb ∈ nd.2.neighbors, 0 ≤ nb.2
  admissible : ∀ nd ∈ graph, ∀ nb ∈ nd.2.neighbors, ∃ nd2,
    getNode graph nb.1 = some nd2 ∧
    Real.sqrt ((nd.2.position.x - nd2.position.x) ^ 2 +
      (nd.2.position.y - nd2.position.y) ^ 2) ≤ nb.2

/-! ### Concrete inputs used by counterexamples and witnesses -/

/-- A graph document violating all three well-formedness conditions: the
id `A` occurs twice, the neighbor key `B` is dangling, and the edge cost
`-5` is negative. -/
def badGraphDoc : List JsonNodeItem :=
  [ { id := "A", name := "", audio := "", x := 0, y := 0, neighbors := [("B", -5)] },
    { id := "A", name := "", audio := "", x := 1, y := 0, neighbors := [] } ]

/-- A live scan equal to the stored fingerprint of `RP_HALLWAY_START`. -/
def scanAtStart : List BLEBeaconData :=
  [⟨"BEACON_ID_1", -50⟩, ⟨"BEACON_ID_2", -80⟩, ⟨"BEACON_ID_3", -90⟩]

/-- A live scan equal to the stored fingerprint of `RP_HALLWAY_END`. -/
def scanAtEnd : List BLEBeaconData :=
  [⟨"BEACON_ID_1", -90⟩, ⟨"BEACON_ID_2", -50⟩, ⟨"BEACON_ID_3", -80⟩]

/-- A two-node graph: `A` at the origin, `B` at `(3,4)`, one edge each
way of cost `5` (equal to the Euclidean distance, so the heuristic is
admissible). -/
def twoNodeGraph : NavigationGraph :=
  [ ("A", { id := "A", name := "", audio_file := "", position := ⟨0, 0⟩,
            neighbors := [("B", 5)] }),
    ("B", { id := "B", name := "", audio_file := "", position := ⟨3, 4⟩,
            neighbors := [("A", 5)] }) ]

/-- The g-score value of a key, the absent default being `+∞`. -/
def gval (g : List (String × WithTop ℝ)) (k : String) : WithTop ℝ :=
  (mfind g k).getD ⊤

/-- The heuristic used by the loop for node `k`. -/
def hOf (graph : NavigationGraph) (target_node_id k : String) : WithTop ℝ :=
  ((getDistance graph k target_node_id : ℝ) : WithTop ℝ)

/-- Costs of duplicate-free walks out of `s` (the values the g-score map
can hold; a finite set, which drives the termination measure). -/
def SimpleCosts (graph : NavigationGraph) (s : String) : Set ℝ :=
  {c | ∃ p k, IsPathFromTo graph p s k ∧ p.Nodup ∧ chainCost graph p = c}

/-- Termination measure, per key: the number of simple costs strictly
below the key's current g-score. -/
def keyMeasure (graph : NavigationGraph) (s : String)
    (g : List (String × WithTop ℝ)) (k : String) : ℕ :=
  (SimpleCosts graph s ∩ {x | (x : WithTop ℝ) < gval g k}).ncard

/-- Termination measure of a loop state: the total count of strict
improvements still available to the g-score map. -/
def measureR (graph : NavigationGraph) (s : String) (st : AStarState) : ℕ :=
  ∑ k ∈ (graph.map Prod.fst).toFinset, keyMeasure graph s st.g_score k

/-- The core loop-state invariant of the A* main loop (for fixed `graph`,
`s`, `t`), everything except the queue-cover property.  `gsp` strengthens
g-score soundness: every finite g-score is the cost of a duplicate-free
walk from `s` on which every vertex's current g-score is at most the cost
of its prefix. -/
structure AInvCore (graph : NavigationGraph) (s t : String) (st : AStarState) : Prop where
  gdom : ∀ nd ∈ graph, ∃ c, mfind st.g_score nd.1 = some c
  gdom2 : ∀ k c, mfind st.g_score k = some c → (getNode graph k).isSome
  gstart : mfind st.g_score s = some 0
  gnonneg : ∀ k c, mfind st.g_score k = some c → 0 ≤ c
  gsp : ∀ k (c : ℝ), mfind st.g_score k = some (c : WithTop ℝ) →
    ∃ p, IsPathFromTo graph p s k ∧ p.Nodup ∧ chainCost graph p = c ∧
      ∀ i : ℕ, i < p.length → gval st.g_score (p.getD i s) ≤
        (chainCost graph (p.take (i + 1)) : WithTop ℝ)
  qgood : ∀ e ∈ st.open_set, ∃ c : ℝ, mfind st.g_score e.id = some (c : WithTop ℝ) ∧
    (c : WithTop ℝ) + hOf graph t e.id ≤ e.f_score
  tcover : ∀ c : ℝ, mfind st.g_score t = some (c : WithTop ℝ) →
    ∃ e ∈ st.open_set, e.id = t ∧ e.f_score ≤ (c : WithTop ℝ) + hOf graph t t
  cfedge : ∀ k pk, mfind st.came_from k = some pk → ∃ w : ℝ,
    edgeCost graph pk k = some w ∧ gval st.g_score pk + (w : WithTop ℝ) ≤ gval st.g_score k ∧
    gval st.g_score k ≠ ⊤
  cfstart : mfind st.came_from s = none
  cftotal : ∀ k (c : ℝ), mfind st.g_score k = some (c : WithTop ℝ) → k ≠ s →
    (mfind st.came_from k).isSome
  cftime : ∃ tau : String → ℕ, ∀ k pk w, mfind st.came_from k = some pk →
    edgeCost graph pk k = some w →
    gval st.g_score k = gval st.g_score pk + (w : WithTop ℝ) → tau pk < tau k

/-- Queue-cover property at key `k`: a key with a finite g-score either
has an open entry whose f-score is at most `g + h`, or all its out-edges
are fully relaxed. -/
def qcoverAt (graph : NavigationGraph) (t : String) (st : AStarState) (k : String) : Prop :=
  ∀ c : ℝ, mfind st.g_score k = some (c : WithTop ℝ) →
    (∃ e ∈ st.open_set, e.id = k ∧ e.f_score ≤ (c : WithTop ℝ) + hOf graph t k) ∨
    (∀ nd, getNode graph k = some nd → ∀ nb ∈ nd.neighbors,
      gval st.g_score nb.1 ≤ (c : WithTop ℝ) + (nb.2 : WithTop ℝ))

/-- The full A* loop invariant. -/
def AInv (graph : NavigationGraph) (s t : String) (st : AStarState) : Prop :=
  AInvCore graph s t st ∧ ∀ k, qcoverAt graph t st k

/-- The invariant carried through the neighbor-relaxation fold of one loop
iteration for the popped node `c` (whose g-score read before the fold was
`gc`): the core invariant, queue cover everywhere except possibly at `c`,
stability of `c`'s g-score, and full relaxation of the prefix `done` of
`c`'s adjacency list already processed. -/
def foldInv (graph : NavigationGraph) (s t c : String) (gc : ℝ)
    (done : List (String × ℝ)) (st : AStarState) : Prop :=
  AInvCore graph s t st ∧
  (∀ k, k ≠ c → qcoverAt graph t st k) ∧
  mfind st.g_score c = some (gc : WithTop ℝ) ∧
  ∀ nb ∈ done, gval st.g_score nb.1 ≤ (gc : WithTop ℝ) + (nb.2 : WithTop ℝ)

/-- The conclusion of the pathfinder claim for a returned path. -/
def GoodPath (graph : NavigationGraph) (s t : String) (p : List String) : Prop :=
  IsPathFromTo graph p s t ∧ IsLeast (walkCosts graph s t) (chainCost graph p)

/-- Iterated `came_from` parent lookup (used to reason about the
reconstruction loop). -/
def parentIter (cf : List (String × String)) (u : String) : ℕ → Option String
  | 0 => some u
  | n + 1 => (parentIter cf u n).bind fun v => mfind cf v

/-- Keys lexicographically below `u` in (g-score, `tau` time-stamp) order
(following a `came_from` pointer strictly descends in this order). -/
def lexBelow (g : List (String × WithTop ℝ)) (tau : String → ℕ) (u : String) : Set String :=
  {v | gval g v < gval g u ∨ (gval g v = gval g u ∧ tau v < tau u)}

/-- Bound on the number of remaining `came_from` hops below `u` (drives
the termination of the reconstruction loop). -/
def recMeasure (st : AStarState) (tau : String → ℕ) (u : String) : ℕ :=
  (lexBelow st.g_score tau u ∩ {v | (mfind st.came_from v).isSome}).ncard

/-!
# Theorems

General helper lemmas first, then one theorem per claim (with its
witness or counterexample where required).
-/

/-! ## Angle helpers -/

theorem wrapAngle_mem_Ioc (θ : ℝ) : wrapAngle θ ∈ Set.Ioc (-Real.pi) Real.pi :=
  Complex.arg_mem_Ioc _

theorem wrapAngle_zero : wrapAngle 0 = 0 := by
  unfold wrapAngle atan2
  have h : (⟨Real.cos 0, Real.sin 0⟩ : ℂ) = 1 := by
    simp [Complex.ext_iff]
  rw [h, Complex.arg_one]

/-! ## C7: draining the PDR update twice -/

/-- C7: after one `get_pdr_update`, a second consecutive call (with no
intervening `process_IMU_data`) returns the all-zero `PDRState`; reading
the accumulators resets them in the same operation. -/
theorem C7_drain_idempotent (s : PDR) :
    ((s.get_pdr_update.2).get_pdr_update).1 = ⟨0, 0, false⟩ := rfl

/-! ## C10: no step confirmation on consecutive IMU samples -/

theorem detect_step_fired_is_peak {s : PDR} {i : IMUData}
    (h : (s.detect_step i).1 = true) : s.is_peak = true ∧ (s.detect_step i).2.is_peak = false := by
  unfold PDR.detect_step at h ⊢
  by_cases h1 : s.is_peak = false
  · rw [if_pos h1] at h
    exfalso
    revert h
    split_ifs <;> simp
  · rw [if_neg h1] at h ⊢
    refine ⟨by simpa using h1, ?_⟩
    revert h
    split_ifs <;> simp

theorem detect_step_not_peak {s : PDR} {i : IMUData}
    (h : s.is_peak = false) : (s.detect_step i).1 = false := by
  unfold PDR.detect_step
  rw [if_pos h]
  split_ifs <;> simp

theorem update_heading_is_peak (s : PDR) (g dt : ℝ) :
    (s.update_heading g dt).is_peak = s.is_peak := rfl

theorem process_IMU_data_is_peak (s : PDR) (i : IMUData) (dt : ℝ) :
    (s.process_IMU_data i dt).is_peak =
      ((s.update_heading i.gyroscope_z dt).detect_step i).2.is_peak := by
  by_cases h : ((s.update_heading i.gyroscope_z dt).detect_step i).1 = true
  · simp [PDR.process_IMU_data, h]
  · simp [PDR.process_IMU_data, h]

/-- C10: if a `process_IMU_data` call confirms a step, the immediately
following `process_IMU_data` call does not: confirming clears the
above-threshold flag (`is_peak`), and with the flag cleared `detect_step`
cannot fire again before a later sample first rises above the threshold. -/
theorem C10_no_consecutive_steps (s : PDR) (i1 i2 : IMUData) (dt1 dt2 : ℝ)
    (h : s.stepConfirmed i1 dt1 = true) :
    (s.process_IMU_data i1 dt1).stepConfirmed i2 dt2 = false := by
  unfold PDR.stepConfirmed at h ⊢
  apply detect_step_not_peak
  rw [update_heading_is_peak, process_IMU_data_is_peak]
  exact (detect_step_fired_is_peak h).2

/-- Witness for C10 at a concrete state and samples: a state above
threshold whose filtered magnitude falls (a peak), confirming a step. -/
theorem C10_no_consecutive_steps_witness :
    (PDR.stepConfirmed ⟨12, true, 1.1 * 9.81, 0, 0, false, 0⟩ ⟨0, 0, 0, 0, 0, 0⟩ 0.02 = true) ∧
    ((PDR.process_IMU_data ⟨12, true, 1.1 * 9.81, 0, 0, false, 0⟩ ⟨0, 0, 0, 0, 0, 0⟩ 0.02).stepConfirmed
      ⟨0, 0, 0, 0, 0, 0⟩ 0.02 = false) := by
  have h : PDR.stepConfirmed ⟨12, true, 1.1 * 9.81, 0, 0, false, 0⟩ ⟨0, 0, 0, 0, 0, 0⟩ 0.02 = true := by
    unfold PDR.stepConfirmed PDR.detect_step PDR.update_heading
    norm_num
  exact ⟨h, C10_no_consecutive_steps _ _ _ _ _ h⟩

/-! ## C9: BLE-derived EKF updates per tick -/

/-- C9 counterexample: when a `KEY_WHERE_AM_I` press coincides with the
5-second cadence firing (timer 4.9 s, dt 0.2 s, non-empty scan), the tick
applies two BLE-derived EKF updates, not at most one. -/
theorem C9_counterexample :
    (tickBLEUpdates KeyPress.KEY_WHERE_AM_I 4.9 0.2 true).1 = 2 ∧
    ¬ (tickBLEUpdates KeyPress.KEY_WHERE_AM_I 4.9 0.2 true).1 ≤ 1 := by
  have h : (tickBLEUpdates KeyPress.KEY_WHERE_AM_I 4.9 0.2 true).1 = 2 := by
    unfold tickBLEUpdates
    norm_num
  exact ⟨h, by omega⟩

/-- C9 amended: a tick applies at most two BLE-derived EKF updates, and
two occur only when the `KEY_WHERE_AM_I` handler and the 5-second cadence
(with a non-empty scan) fire in the same iteration. -/
theorem C9_at_most_two (key : KeyPress) (bt dt : ℝ) (sn : Bool) :
    (tickBLEUpdates key bt dt sn).1 ≤ 2 ∧
    ((tickBLEUpdates key bt dt sn).1 = 2 →
      key = KeyPress.KEY_WHERE_AM_I ∧ bt + dt > 5.0 ∧ sn = true) := by
  simp only [tickBLEUpdates]
  by_cases ht : bt + dt > 5.0
  · rw [if_pos ht]
    by_cases hk : key = KeyPress.KEY_WHERE_AM_I <;> by_cases hs : sn = true <;>
      simp [hk, hs, ht]
  · rw [if_neg ht]
    by_cases hk : key = KeyPress.KEY_WHERE_AM_I <;> simp [hk, ht]

/-- Witness for C9's amended theorem at the counterexample input. -/
theorem C9_at_most_two_witness :
    (tickBLEUpdates KeyPress.KEY_WHERE_AM_I 4.9 0.2 true).1 ≤ 2 ∧
    ((tickBLEUpdates KeyPress.KEY_WHERE_AM_I 4.9 0.2 true).1 = 2 →
      KeyPress.KEY_WHERE_AM_I = KeyPress.KEY_WHERE_AM_I ∧ (4.9 : ℝ) + 0.2 > 5.0 ∧ true = true) :=
  C9_at_most_two KeyPress.KEY_WHERE_AM_I 4.9 0.2 true

/-! ## Association-list lemmas -/

theorem mfind_massign_self {β : Type} (m : List (String × β)) (k : String) (v : β) :
    mfind (massign m k v) k = some v := by
  induction m with
  | nil => simp [massign, mfind]
  | cons p rest ih =>
    by_cases h : p.1 = k
    · simp [massign, mfind, h]
    · simp [massign, mfind, h, ih]

theorem mfind_massign_ne {β : Type} (m : List (String × β)) (k k2 : String) (v : β)
    (h : k2 ≠ k) : mfind (massign m k v) k2 = mfind m k2 := by
  induction m with
  | nil => simp [massign, mfind, Ne.symm h]
  | cons p rest ih =>
    by_cases hp : p.1 = k
    · have hpk2 : p.1 ≠ k2 := by
        rw [hp]
        exact Ne.symm h
      simp [massign, mfind, hp, hpk2, Ne.symm h]
    · by_cases hp2 : p.1 = k2
      · simp [massign, mfind, hp, hp2, h]
      · simp [massign, mfind, hp, hp2, ih]

theorem mfind_massign_isSome {β : Type} (m : List (String × β)) (k k2 : String) (v : β)
    (h : (mfind m k2).isSome) : (mfind (massign m k v) k2).isSome := by
  by_cases hk : k2 = k
  · subst hk
    simp [mfind_massign_self]
  · rwa [mfind_massign_ne _ _ _ _ hk]

/-! ## C3: graph loading is unvalidated -/

theorem load_fold_preserves (doc : List JsonNodeItem) (m : NavigationGraph) (k : String)
    (h : (mfind m k).isSome) :
    (mfind (doc.foldl (fun m2 item =>
      massign m2 item.id ⟨item.id, item.name, item.audio, ⟨item.x, item.y⟩, item.neighbors⟩) m) k).isSome := by
  induction doc generalizing m with
  | nil => exact h
  | cons item rest ih =>
    rw [List.foldl_cons]
    exact ih _ (mfind_massign_isSome _ _ _ _ h)

theorem load_fold_mem (doc : List JsonNodeItem) (m : NavigationGraph)
    (item : JsonNodeItem) (hmem : item ∈ doc) :
    (mfind (doc.foldl (fun m2 it =>
      massign m2 it.id ⟨it.id, it.name, it.audio, ⟨it.x, it.y⟩, it.neighbors⟩) m) item.id).isSome := by
  induction doc generalizing m with
  | nil => cases hmem
  | cons hd rest ih =>
    rw [List.foldl_cons]
    rcases List.mem_cons.mp hmem with h | h
    · subst h
      exact load_fold_preserves _ _ _ (by rw [mfind_massign_self]; rfl)
    · exact ih _ h

/-- C3 counterexample: a document with a duplicate id, a dangling
neighbor key and a negative edge cost still loads successfully
(`load_from_json` returns `true`), contradicting the claim that such a
load must fail. -/
theorem C3_counterexample :
    (load_from_json badGraphDoc).1 = true ∧ ¬ GraphDocWellFormed badGraphDoc := by
  constructor
  · rfl
  · intro h
    have hd := h.1
    simp [badGraphDoc] at hd

/-- C3 amended: `load_from_json` performs no well-formedness validation at
all: every parsed document loads with result `true`, each id of the
document ends up mapped (the last entry with a given id winning), and
dangling neighbor keys and negative costs are stored as-is. -/
theorem C3_loader_accepts_everything (doc : List JsonNodeItem) :
    (load_from_json doc).1 = true ∧
    ∀ item ∈ doc, ∃ node, mfind (load_from_json doc).2 item.id = some node := by
  constructor
  · rfl
  · intro item hitem
    have h := load_fold_mem doc [] item hitem
    rcases Option.isSome_iff_exists.mp h with ⟨node, hnode⟩
    exact ⟨node, hnode⟩

/-- Witness for C3's amended theorem at the ill-formed document. -/
theorem C3_loader_accepts_everything_witness :
    (load_from_json badGraphDoc).1 = true ∧
    ∃ node, mfind (load_from_json badGraphDoc).2 ("A") = some node := by
  have h := C3_loader_accepts_everything badGraphDoc
  refine ⟨h.1, ?_⟩
  have h2 := h.2 { id := "A", name := "", audio := "", x := 0, y := 0, neighbors := [("B", -5)] }
    (by simp [badGraphDoc])
  exact h2

/-! ## C5 and C6: localizer evaluations -/

theorem dedup_beacon3 :
    (["BEACON_ID_1", "BEACON_ID_2", "BEACON_ID_3"] : List String).dedup
      = ["BEACON_ID_1", "BEACON_ID_2", "BEACON_ID_3"] := by decide

theorem beacon_ne12 : ("BEACON_ID_1" : String) = "BEACON_ID_2" ↔ False := by decide

theorem beacon_ne13 : ("BEACON_ID_1" : String) = "BEACON_ID_3" ↔ False := by decide

theorem beacon_ne23 : ("BEACON_ID_2" : String) = "BEACON_ID_3" ↔ False := by decide

theorem cfd_start_rp1 :
    calculate_fingerprint_distance
      [("BEACON_ID_1", -50), ("BEACON_ID_2", -80), ("BEACON_ID_3", -90)]
      [("BEACON_ID_1", -50), ("BEACON_ID_2", -80), ("BEACON_ID_3", -90)] = 0 := by
  unfold calculate_fingerprint_distance
  norm_num [mfind, dedup_beacon3, beacon_ne12, beacon_ne13, beacon_ne23]

theorem cfd_start_rp2 :
    calculate_fingerprint_distance
      [("BEACON_ID_1", -50), ("BEACON_ID_2", -80), ("BEACON_ID_3", -90)]
      [("BEACON_ID_1", -65), ("BEACON_ID_2", -65), ("BEACON_ID_3", -85)] = Real.sqrt 475 := by
  unfold calculate_fingerprint_distance
  norm_num [mfind, dedup_beacon3, beacon_ne12, beacon_ne13, beacon_ne23]

theorem cfd_start_rp3 :
    calculate_fingerprint_distance
      [("BEACON_ID_1", -50), ("BEACON_ID_2", -80), ("BEACON_ID_3", -90)]
      [("BEACON_ID_1", -90), ("BEACON_ID_2", -50), ("BEACON_ID_3", -80)] = Real.sqrt 2600 := by
  unfold calculate_fingerprint_distance
  norm_num [mfind, dedup_beacon3, beacon_ne12, beacon_ne13, beacon_ne23]

theorem cfd_end_rp1 :
    calculate_fingerprint_distance
      [("BEACON_ID_1", -90), ("BEACON_ID_2", -50), ("BEACON_ID_3", -80)]
      [("BEACON_ID_1", -50), ("BEACON_ID_2", -80), ("BEACON_ID_3", -90)] = Real.sqrt 2600 := by
  unfold calculate_fingerprint_distance
  norm_num [mfind, dedup_beacon3, beacon_ne12, beacon_ne13, beacon_ne23]

theorem cfd_end_rp2 :
    calculate_fingerprint_distance
      [("BEACON_ID_1", -90), ("BEACON_ID_2", -50), ("BEACON_ID_3", -80)]
      [("BEACON_ID_1", -65), ("BEACON_ID_2", -65), ("BEACON_ID_3", -85)] = Real.sqrt 875 := by
  unfold calculate_fingerprint_distance
  norm_num [mfind, dedup_beacon3, beacon_ne12, beacon_ne13, beacon_ne23]

theorem cfd_end_rp3 :
    calculate_fingerprint_distance
      [("BEACON_ID_1", -90), ("BEACON_ID_2", -50), ("BEACON_ID_3", -80)]
      [("BEACON_ID_1", -90), ("BEACON_ID_2", -50), ("BEACON_ID_3", -80)] = 0 := by
  unfold calculate_fingerprint_distance
  norm_num [mfind, dedup_beacon3, beacon_ne12, beacon_ne13, beacon_ne23]

theorem scan_start_map :
    scanAtStart.foldl (fun m b => massign m b.id b.rssi) []
      = [("BEACON_ID_1", -50), ("BEACON_ID_2", -80), ("BEACON_ID_3", -90)] := rfl

theorem scan_end_map :
    scanAtEnd.foldl (fun m b => massign m b.id b.rssi) []
      = [("BEACON_ID_1", -90), ("BEACON_ID_2", -50), ("BEACON_ID_3", -80)] := rfl

/-- C6 counterexample: with the (non-empty) placeholder radio map, `k = 1`
and a live scan equal to the stored fingerprint of `RP_HALLWAY_START`,
`find_closest_position` returns `(0, 0)` — so `(0, 0)` is not returned
only on an empty radio map. -/
theorem C6_counterexample :
    find_closest_position 1 placeholderMap scanAtStart = ⟨0, 0⟩ ∧
    placeholderMap ≠ [] := by
  constructor
  · unfold find_closest_position
    rw [if_neg (by simp [placeholderMap])]
    have c1 : (0 : ℝ) < Real.sqrt 475 := Real.sqrt_pos.mpr (by norm_num)
    have c2 : Real.sqrt 475 < Real.sqrt 2600 := Real.sqrt_lt_sqrt (by norm_num) (by norm_num)
    simp only [placeholderMap, scan_start_map, List.map_cons, List.map_nil,
      cfd_start_rp1, cfd_start_rp2, cfd_start_rp3]
    simp [List.insertionSort, List.orderedInsert, c1, c2]
  · simp [placeholderMap]

/-- C6 amended: the forward direction holds — on an empty radio map
`find_closest_position` always returns the origin; the converse fails. -/
theorem C6_empty_map_origin (k : ℤ) (scan : List BLEBeaconData) :
    find_closest_position k [] scan = ⟨0, 0⟩ := by
  unfold find_closest_position
  rw [if_pos rfl]

/-- C5: the stored `k` is the raw constructor argument (the clamp in the
constructor body writes to the shadowing parameter), so with `k = 0` the
localizer averages `min(N, 0) = 0` neighbors and returns the error value
`(0, 0)`, while the unique nearest reference point for the scan sits at
`(0, 10)` — and a localizer constructed with `k = 1` returns `(0, 10)`.
`k = 0` therefore does not behave like `k = 1`. -/
theorem C5_k_zero_is_error :
    bleStoredK 0 = 0 ∧
    find_closest_position (bleStoredK 0) placeholderMap scanAtEnd = ⟨0, 0⟩ ∧
    find_closest_position 1 placeholderMap scanAtEnd = ⟨0, 10⟩ ∧
    IsUniqueNearestRP (scanAtEnd.foldl (fun m b => massign m b.id b.rssi) [])
      placeholderMap
      { rp_id := "RP_HALLWAY_END", position := ⟨0, 10⟩,
        signal_strengths := [("BEACON_ID_1", -90), ("BEACON_ID_2", -50), ("BEACON_ID_3", -80)] } ∧
    (Position2D.mk 0 10 ≠ Position2D.mk 0 0) := by
  have hm : placeholderMap ≠ [] := by simp [placeholderMap]
  have cn1 : ¬ (Real.sqrt 875 < 0) := not_lt.mpr (Real.sqrt_nonneg _)
  have cn2 : ¬ (Real.sqrt 2600 < 0) := not_lt.mpr (Real.sqrt_nonneg _)
  have cn3 : ¬ (Real.sqrt 2600 < Real.sqrt 875) :=
    not_lt.mpr (Real.sqrt_le_sqrt (by norm_num))
  refine ⟨rfl, ?_, ?_, ?_, ?_⟩
  · unfold bleStoredK find_closest_position
    rw [if_neg hm]
    simp only [placeholderMap, scan_end_map, List.map_cons, List.map_nil,
      cfd_end_rp1, cfd_end_rp2, cfd_end_rp3]
    norm_num [List.length_insertionSort]
  · unfold find_closest_position
    rw [if_neg hm]
    simp only [placeholderMap, scan_end_map, List.map_cons, List.map_nil,
      cfd_end_rp1, cfd_end_rp2, cfd_end_rp3]
    simp [List.insertionSort, List.orderedInsert, cn1, cn2, cn3]
  · refine ⟨by simp [placeholderMap], ?_⟩
    intro rp2 hmem hne
    rw [scan_end_map]
    simp only [placeholderMap, List.mem_cons, List.not_mem_nil, or_false] at hmem
    rcases hmem with h | h | h
    · subst h
      rw [cfd_end_rp3, cfd_end_rp1]
      exact Real.sqrt_pos.mpr (by norm_num)
    · subst h
      rw [cfd_end_rp3, cfd_end_rp2]
      exact Real.sqrt_pos.mpr (by norm_num)
    · subst h
      exact absurd rfl hne
  · intro h
    have h10 := congrArg Position2D.y h
    norm_num at h10

/-! ## C2: heading wrapping across predict and update -/

/-- C2 amended (provable part): whenever `EKF::predict` modifies the
heading — a step was detected, or the accumulated heading change exceeds
`0.001` — the stored θ is re-normalized into `(-π, π]`. -/
theorem C2_predict_wraps (s : EKF) (u : PDRState)
    (h : u.step_detected = true ∨ 0.001 < |u.delta_heading|) :
    (s.predict u).x 2 ∈ Set.Ioc (-Real.pi) Real.pi := by
  unfold EKF.predict
  by_cases hstep : u.step_detected = false
  · rcases h with h | h
    · rw [hstep] at h
      cases h
    · rw [if_pos hstep, if_pos h]
      show wrapAngle _ ∈ _
      exact wrapAngle_mem_Ioc _
  · rw [if_neg hstep]
    show wrapAngle _ ∈ _
    exact wrapAngle_mem_Ioc _

/-- Witness for C2's amended theorem: a concrete predict call with a
detected step. -/
theorem C2_predict_wraps_witness :
    (EKF.ctor.predict ⟨1, 0, true⟩).x 2 ∈ Set.Ioc (-Real.pi) Real.pi :=
  C2_predict_wraps EKF.ctor ⟨1, 0, true⟩ (Or.inl rfl)

theorem C2_ekf_predict_step :
    ((EKF.ctor.initPose 0 0 0).predict ⟨1, 0, true⟩) =
      ⟨![1, 0, 0], !![1.1, 0, 0; 0, 2.1, 1; 0, 1, 1.05]⟩ := by
  have h0 : EKF.ctor.initPose 0 0 0 = ⟨![0, 0, 0], 1⟩ := rfl
  rw [h0]
  simp only [EKF.predict]
  rw [if_neg (by simp)]
  have hx0 : (![0, 0, 0] : Fin 3 → ℝ) 0 = 0 := rfl
  have hx1 : (![0, 0, 0] : Fin 3 → ℝ) 1 = 0 := rfl
  have hx2 : (![0, 0, 0] : Fin 3 → ℝ) 2 = 0 := rfl
  rw [EKF.mk.injEq]
  refine ⟨?_, ?_⟩
  · funext i
    fin_cases i <;>
      simp [hx0, hx1, hx2, wrapAngle_zero, Real.cos_zero, Real.sin_zero]
  · ext i j
    fin_cases i <;> fin_cases j <;>
      simp [hx2, Matrix.mul_apply, Fin.sum_univ_three, Matrix.transpose_apply, EKFQ,
        Matrix.one_apply, Real.cos_zero, Real.sin_zero, Matrix.vecHead, Matrix.vecTail] <;>
      norm_num

theorem C2_innovation_at_state :
    EKF.innovationCov ⟨![1, 0, 0], !![1.1, 0, 0; 0, 2.1, 1; 0, 1, 1.05]⟩
      = !![3.1, 0; 0, 4.1] := by
  ext i j
  fin_cases i <;> fin_cases j <;>
    simp [EKF.innovationCov, EKFH, EKFR, Matrix.mul_apply, Fin.sum_univ_three,
      Fin.sum_univ_two, Matrix.transpose_apply, Matrix.vecHead, Matrix.vecTail] <;>
    norm_num

/-- C2 counterexample: starting from the initialized state (heading `0`,
inside `(-π, π]`), one step-predict followed by one BLE update with the
fix `(1, 41)` leaves the stored heading at `10`, outside `(-π, π]`:
`EKF::update` does not wrap θ. -/
theorem C2_counterexample :
    ((EKF.ctor.initPose 0 0 0).x 2 ∈ Set.Ioc (-Real.pi) Real.pi) ∧
    (((EKF.ctor.initPose 0 0 0).predict ⟨1, 0, true⟩).update ⟨1, 41⟩).x 2 = 10 ∧
    ¬ ((((EKF.ctor.initPose 0 0 0).predict ⟨1, 0, true⟩).update ⟨1, 41⟩).x 2
        ∈ Set.Ioc (-Real.pi) Real.pi) := by
  have hpi : 0 < Real.pi := Real.pi_pos
  have hval : (((EKF.ctor.initPose 0 0 0).predict ⟨1, 0, true⟩).update ⟨1, 41⟩).x 2 = 10 := by
    rw [C2_ekf_predict_step]
    unfold EKF.update
    rw [C2_innovation_at_state]
    simp [eigenInverse2, Matrix.mulVec, Matrix.dotProduct, Matrix.mul_apply,
      Fin.sum_univ_three, Fin.sum_univ_two, Matrix.transpose_apply,
      Matrix.smul_apply, Matrix.vecHead, Matrix.vecTail, EKFH]
    norm_num
  refine ⟨?_, hval, ?_⟩
  · constructor
    · show -Real.pi < (![0, 0, 0] : Fin 3 → ℝ) 2
      rw [show (![0, 0, 0] : Fin 3 → ℝ) 2 = 0 from rfl]
      linarith
    · show (![0, 0, 0] : Fin 3 → ℝ) 2 ≤ Real.pi
      rw [show (![0, 0, 0] : Fin 3 → ℝ) 2 = 0 from rfl]
      linarith
  · rw [hval]
    intro hmem
    have hb := hmem.2
    have hlt : Real.pi < 3.15 := Real.pi_lt_315
    linarith

/-! ## C8: announcer index invariant -/

theorem announcer_update_cases (a : Announcer) (path : List String)
    (hpath : path ≠ []) (hlo : 1 ≤ a.next_node_index)
    (hhi : a.next_node_index ≤ (path.length : ℤ))
    (pose : Fin 3 → ℝ) (graph : NavigationGraph) (now : ℝ) :
    (1 ≤ (a.update pose path graph now).2.1.next_node_index ∧
      (a.update pose path graph now).2.1.next_node_index ≤ (path.length : ℤ)) ∧
    (a.update pose path graph now).2.1.next_node_index ≤ a.next_node_index + 1 ∧
    (a.next_node_index = (path.length : ℤ) →
      (a.update pose path graph now).2.1.destination_reached = true) := by
  unfold Announcer.update
  by_cases hb1 : path = [] ∨ a.destination_reached = true
  · rw [if_pos hb1]
    have hr : a.destination_reached = true := by
      rcases hb1 with h | h
      · exact absurd h hpath
      · exact h
    exact ⟨⟨hlo, hhi⟩, (show a.next_node_index ≤ a.next_node_index + 1 by omega),
      fun _ => hr⟩
  · rw [if_neg hb1]
    push_neg at hb1
    by_cases hb2 : a.next_node_index < 0 ∨ (path.length : ℤ) ≤ a.next_node_index
    · rw [if_pos hb2]
      rw [if_pos (by simpa using hb1.2)]
      exact ⟨⟨hlo, hhi⟩, (show a.next_node_index ≤ a.next_node_index + 1 by omega),
        fun _ => rfl⟩
    · rw [if_neg hb2]
      push_neg at hb2
      have hlt : a.next_node_index < (path.length : ℤ) := hb2.2
      cases hg : getNode graph (path.getD a.next_node_index.toNat "") with
      | none =>
        simp only [hg]
        exact ⟨⟨hlo, hhi⟩, (show a.next_node_index ≤ a.next_node_index + 1 by omega),
          fun heq => absurd heq (by omega)⟩
      | some target_node =>
        simp only [hg]
        by_cases hd : Real.sqrt ((target_node.position.x - pose 0) *
            (target_node.position.x - pose 0) +
            (target_node.position.y - pose 1) * (target_node.position.y - pose 1)) < 1.5
        · rw [if_pos hd]
          exact ⟨⟨(show (1 : ℤ) ≤ a.next_node_index + 1 by omega),
              (show a.next_node_index + 1 ≤ (path.length : ℤ) by omega)⟩,
            (show a.next_node_index + 1 ≤ a.next_node_index + 1 by omega),
            fun heq => absurd heq (by omega)⟩
        · rw [if_neg hd]
          by_cases hc : now - a.last_announcement_time < 3.0
          · rw [if_pos hc]
            exact ⟨⟨hlo, hhi⟩, (show a.next_node_index ≤ a.next_node_index + 1 by omega),
              fun heq => absurd heq (by omega)⟩
          · rw [if_neg hc]
            by_cases he1 : normalize_angle (atan2 (target_node.position.y - pose 1)
                (target_node.position.x - pose 0) - pose 2) > 0.35
            · rw [if_pos he1]
              exact ⟨⟨hlo, hhi⟩, (show a.next_node_index ≤ a.next_node_index + 1 by omega),
                fun heq => absurd heq (by omega)⟩
            · rw [if_neg he1]
              by_cases he2 : normalize_angle (atan2 (target_node.position.y - pose 1)
                  (target_node.position.x - pose 0) - pose 2) < -0.35
              · rw [if_pos he2]
                exact ⟨⟨hlo, hhi⟩, (show a.next_node_index ≤ a.next_node_index + 1 by omega),
                  fun heq => absurd heq (by omega)⟩
              · rw [if_neg he2]
                exact ⟨⟨hlo, hhi⟩, (show a.next_node_index ≤ a.next_node_index + 1 by omega),
                  fun heq => absurd heq (by omega)⟩

/-- C8: for every announcer state reachable from `reset()` by updates that
all pass the same non-empty path, `next_target_index` (the member
`next_node_index`) lies in `[1, |path|]`; each update call raises it by at
most 1; and an update from a state with index `|path|` leaves
`destination_reached` true. -/
theorem C8_announcer_invariant (path : List String) (hpath : path ≠ [])
    (a : Announcer) (hreach : AnnouncerReachable path a) :
    (1 ≤ a.next_node_index ∧ a.next_node_index ≤ (path.length : ℤ)) ∧
    ∀ (pose : Fin 3 → ℝ) (graph : NavigationGraph) (now : ℝ),
      (a.update pose path graph now).2.1.next_node_index ≤ a.next_node_index + 1 ∧
      (a.next_node_index = (path.length : ℤ) →
        (a.update pose path graph now).2.1.destination_reached = true) := by
  have hlen : 1 ≤ (path.length : ℤ) := by
    have h := List.length_pos.mpr hpath
    omega
  induction hreach with
  | base a0 =>
    refine ⟨⟨le_refl 1, hlen⟩, ?_⟩
    intro pose graph now
    exact (announcer_update_cases a0.reset path hpath (le_refl 1) hlen pose graph now).2
  | step a0 pose0 graph0 now0 hr ih =>
    have hstep := announcer_update_cases a0 path hpath ih.1.1 ih.1.2 pose0 graph0 now0
    refine ⟨hstep.1, ?_⟩
    intro pose graph now
    exact (announcer_update_cases _ path hpath hstep.1.1 hstep.1.2 pose graph now).2

/-- Witness for C8 at the singleton path and the freshly reset state. -/
theorem C8_announcer_invariant_witness :
    (1 ≤ (Announcer.ctor 0).reset.next_node_index ∧
      (Announcer.ctor 0).reset.next_node_index ≤ ((["A"] : List String).length : ℤ)) ∧
    ∀ (pose : Fin 3 → ℝ) (graph : NavigationGraph) (now : ℝ),
      ((Announcer.ctor 0).reset.update pose ["A"] graph now).2.1.next_node_index ≤
        (Announcer.ctor 0).reset.next_node_index + 1 ∧
      ((Announcer.ctor 0).reset.next_node_index = ((["A"] : List String).length : ℤ) →
        ((Announcer.ctor 0).reset.update pose ["A"] graph now).2.1.destination_reached = true) :=
  C8_announcer_invariant ["A"] (by simp) (Announcer.ctor 0).reset
    (AnnouncerReachable.base (Announcer.ctor 0))

/-! ## C4: singular innovation covariance -/

/-- C4: the inversion-failure case is reachable — at the state shown the
innovation covariance `S = H·P·Hᵀ + R` is singular (`det S = 0`), and
`EKF::update` (see its definition above) applies the gain computed from
`S.inverse()` unconditionally: the source has no branch that drops the
measurement and leaves the state unchanged. -/
theorem C4_singular_innovation :
    Matrix.det (EKF.innovationCov ⟨![0, 0, 0], !![-2, 0, 0; 0, -2, 0; 0, 0, 1]⟩) = 0 := by
  have h : EKF.innovationCov ⟨![0, 0, 0], !![-2, 0, 0; 0, -2, 0; 0, 0, 1]⟩ = !![0, 0; 0, 0] := by
    ext i j
    fin_cases i <;> fin_cases j <;>
      simp [EKF.innovationCov, EKFH, EKFR, Matrix.mul_apply, Fin.sum_univ_three,
        Fin.sum_univ_two, Matrix.transpose_apply, Matrix.vecHead, Matrix.vecTail] <;>
      norm_num
  rw [h]
  simp [Matrix.det_fin_two]

/-! ## C1: A* on the navigation graph

The remainder of the file proves the pathfinder claim: termination of the
loop, soundness and optimality of the returned path.  Throughout this
development `graph`, `s` (start) and `t` (target) are fixed. -/

section AStarProof

variable {graph : NavigationGraph} {s t : String}

/-! ### Association lists, keys, `gval` -/

theorem mfind_mem {β : Type} {m : List (String × β)} {k : String} {v : β}
    (h : mfind m k = some v) : (k, v) ∈ m := by
  induction m with
  | nil => simp [mfind] at h
  | cons p rest ih =>
    rcases p with ⟨pk, pv⟩
    by_cases hp : pk = k
    · rw [mfind] at h
      rw [if_pos hp] at h
      cases h
      subst hp
      exact List.mem_cons_self _ _
    · rw [mfind] at h
      rw [if_neg hp] at h
      exact List.mem_cons_of_mem _ (ih h)

theorem mfind_isSome_mem_keys {β : Type} {m : List (String × β)} {k : String}
    (h : (mfind m k).isSome) : k ∈ m.map Prod.fst := by
  rcases Option.isSome_iff_exists.mp h with ⟨v, hv⟩
  exact List.mem_map.mpr ⟨(k, v), mfind_mem hv, rfl⟩

theorem mfind_of_mem_nodup {β : Type} {m : List (String × β)} {k : String} {v : β}
    (hnd : (m.map Prod.fst).Nodup) (hmem : (k, v) ∈ m) : mfind m k = some v := by
  induction m with
  | nil => cases hmem
  | cons p rest ih =>
    rcases List.mem_cons.mp hmem with h | h
    · subst h
      rw [mfind, if_pos rfl]
    · have hp : p.1 ≠ k := by
        intro hk
        have hk2 : k ∈ rest.map Prod.fst := List.mem_map.mpr ⟨(k, v), h, rfl⟩
        rw [List.map_cons] at hnd
        exact (List.nodup_cons.mp hnd).1 (hk ▸ hk2)
      rw [mfind, if_neg hp]
      exact ih (List.nodup_cons.mp (by rwa [List.map_cons] at hnd)).2 h

theorem mfind_map_top (m : NavigationGraph) (k : String) :
    mfind (m.map fun p => (p.1, (⊤ : WithTop ℝ))) k
      = (mfind m k).map fun _ => (⊤ : WithTop ℝ) := by
  induction m with
  | nil => simp [mfind]
  | cons p rest ih =>
    by_cases hp : p.1 = k
    · simp [mfind, hp]
    · simp [mfind, hp, ih]

theorem gval_eq_of_mfind {g : List (String × WithTop ℝ)} {k : String} {c : WithTop ℝ}
    (h : mfind g k = some c) : gval g k = c := by
  rw [gval, h]
  rfl

theorem gval_massign_self (g : List (String × WithTop ℝ)) (k : String) (v : WithTop ℝ) :
    gval (massign g k v) k = v := by
  rw [gval, mfind_massign_self]
  rfl

theorem gval_massign_ne (g : List (String × WithTop ℝ)) (k k2 : String) (v : WithTop ℝ)
    (h : k2 ≠ k) : gval (massign g k v) k2 = gval g k2 := by
  rw [gval, mfind_massign_ne _ _ _ _ h, gval]

/-! ### Queue extraction -/

theorem popMin_isSome {l : List NodeScore} (hne : l ≠ []) : (popMin l).isSome := by
  induction l with
  | nil => exact absurd rfl hne
  | cons x xs ih =>
    rw [popMin]
    cases hxs : popMin xs with
    | none => rfl
    | some pr =>
      rcases pr with ⟨m, mrest⟩
      simp only
      by_cases hle : x.f_score ≤ m.f_score
      · rw [if_pos hle]
        rfl
      · rw [if_neg hle]
        rfl

theorem popMin_none {l : List NodeScore} (h : popMin l = none) : l = [] := by
  by_contra hne
  have h2 := popMin_isSome hne
  rw [h] at h2
  simp at h2

theorem popMin_perm : ∀ {l : List NodeScore} {e : NodeScore} {rest : List NodeScore},
    popMin l = some (e, rest) → l.Perm (e :: rest) := by
  intro l
  induction l with
  | nil => intro e rest h; simp [popMin] at h
  | cons x xs ih =>
    intro e rest h
    rw [popMin] at h
    cases hxs : popMin xs with
    | none =>
      rw [hxs] at h
      have hnil : xs = [] := popMin_none hxs
      subst hnil
      cases h
      exact List.Perm.refl _
    | some pr =>
      rcases pr with ⟨m, mrest⟩
      rw [hxs] at h
      simp only at h
      by_cases hle : x.f_score ≤ m.f_score
      · rw [if_pos hle] at h
        cases h
        exact List.Perm.refl _
      · rw [if_neg hle] at h
        cases h
        exact ((ih hxs).cons x).trans (List.Perm.swap _ _ _)

theorem popMin_min : ∀ {l : List NodeScore} {e : NodeScore} {rest : List NodeScore},
    popMin l = some (e, rest) → ∀ e2 ∈ l, e.f_score ≤ e2.f_score := by
  intro l
  induction l with
  | nil => intro e rest h; simp [popMin] at h
  | cons x xs ih =>
    intro e rest h e2 he2
    rw [popMin] at h
    cases hxs : popMin xs with
    | none =>
      rw [hxs] at h
      cases h
      have hnil : xs = [] := popMin_none hxs
      subst hnil
      rcases List.mem_singleton.mp he2 with rfl
      exact le_refl _
    | some pr =>
      rcases pr with ⟨m, mrest⟩
      rw [hxs] at h
      simp only at h
      by_cases hle : x.f_score ≤ m.f_score
      · rw [if_pos hle] at h
        cases h
        rcases List.mem_cons.mp he2 with rfl | h2
        · exact le_refl _
        · exact le_trans hle (ih hxs _ h2)
      · rw [if_neg hle] at h
        cases h
        rcases List.mem_cons.mp he2 with rfl | h2
        · exact le_of_lt (lt_of_not_le hle)
        · exact ih hxs _ h2

/-! ### Edges and the Euclidean heuristic -/

theorem edgeCost_mem {a b : String} {w : ℝ} (h : edgeCost graph a b = some w) :
    ∃ nd, getNode graph a = some nd ∧ (b, w) ∈ nd.neighbors := by
  rw [edgeCost] at h
  cases hn : getNode graph a with
  | none => rw [hn] at h; cases h
  | some nd =>
    rw [hn] at h
    exact ⟨nd, rfl, mfind_mem h⟩

theorem edgeCost_nonneg (hok : AStarGraphOK graph) {a b : String} {w : ℝ}
    (h : edgeCost graph a b = some w) : 0 ≤ w := by
  rcases edgeCost_mem h with ⟨nd, hnd, hmem⟩
  exact hok.nonneg (a, nd) (mfind_mem hnd) (b, w) hmem

theorem edgeCost_target_mem (hok : AStarGraphOK graph) {a b : String} {w : ℝ}
    (h : edgeCost graph a b = some w) : (getNode graph b).isSome := by
  rcases edgeCost_mem h with ⟨nd, hnd, hmem⟩
  rcases hok.admissible (a, nd) (mfind_mem hnd) (b, w) hmem with ⟨nd2, hnd2, _⟩
  rw [hnd2]
  rfl

theorem sqrt_sq_add_sq_eq_dist (x1 y1 x2 y2 : ℝ) :
    Real.sqrt ((x1 - x2) ^ 2 + (y1 - y2) ^ 2) = dist (⟨x1, y1⟩ : ℂ) ⟨x2, y2⟩ := by
  rw [Complex.dist_eq, Complex.abs_apply, Complex.normSq_apply]
  norm_num [Complex.ext_iff]
  ring_nf

theorem getDistance_self (hT : (getNode graph t).isSome) : getDistance graph t t = 0 := by
  rcases Option.isSome_iff_exists.mp hT with ⟨nd, hnd⟩
  simp only [getDistance, hnd]
  norm_num

theorem getDistance_triangle {a b c : String}
    (ha : (getNode graph a).isSome) (hb : (getNode graph b).isSome)
    (hc : (getNode graph c).isSome) :
    getDistance graph a c ≤ getDistance graph a b + getDistance graph b c := by
  rcases Option.isSome_iff_exists.mp ha with ⟨na, hna⟩
  rcases Option.isSome_iff_exists.mp hb with ⟨nb, hnb⟩
  rcases Option.isSome_iff_exists.mp hc with ⟨nc, hnc⟩
  simp only [getDistance, hna, hnb, hnc]
  rw [sqrt_sq_add_sq_eq_dist, sqrt_sq_add_sq_eq_dist, sqrt_sq_add_sq_eq_dist]
  exact dist_triangle _ _ _

theorem getDistance_le_edge (hok : AStarGraphOK graph) {a b : String} {w : ℝ}
    (h : edgeCost graph a b = some w) : getDistance graph a b ≤ w := by
  rcases edgeCost_mem h with ⟨nd, hnd, hmem⟩
  rcases hok.admissible (a, nd) (mfind_mem hnd) (b, w) hmem with ⟨nd2, hnd2, hle⟩
  simp only [getDistance, hnd, hnd2]
  exact hle

/-! ### Chains and walks -/

theorem isGraphChain_cons {a b : String} {rest : List String}
    (hab : (edgeCost graph a b).isSome) (hrest : IsGraphChain graph (b :: rest)) :
    IsGraphChain graph (a :: b :: rest) := ⟨hab, hrest⟩

theorem isPathFromTo_single (u : String) : IsPathFromTo graph [u] u u := by
  refine ⟨by simp, rfl, rfl, ?_⟩
  rw [IsGraphChain]
  trivial

theorem chain_snoc {u v : String} {w : ℝ} (he : edgeCost graph u v = some w) :
    ∀ p : List String, p ≠ [] → p.getLast? = some u → IsGraphChain graph p →
      IsGraphChain graph (p ++ [v]) ∧
        chainCost graph (p ++ [v]) = chainCost graph p + w := by
  intro p
  induction p with
  | nil => intro h; exact absurd rfl h
  | cons a rest ih =>
    intro _ hlast hchain
    cases rest with
    | nil =>
      have ha : a = u := by
        rw [List.getLast?_singleton] at hlast
        cases hlast
        rfl
      subst ha
      constructor
      · exact ⟨by rw [he]; rfl, trivial⟩
      · show chainCost graph (a :: [v]) = chainCost graph [a] + w
        simp [chainCost, he]
    | cons b rest2 =>
      have hlast2 : (b :: rest2).getLast? = some u := by
        rw [List.getLast?_cons_cons] at hlast
        exact hlast
      have ihr := ih (by simp) hlast2 hchain.2
      constructor
      · exact ⟨hchain.1, ihr.1⟩
      · have e1 : chainCost graph (a :: b :: (rest2 ++ [v]))
            = (edgeCost graph a b).getD 0 + chainCost graph (b :: (rest2 ++ [v])) := by
          rw [chainCost]
        have e2 : chainCost graph (a :: b :: rest2)
            = (edgeCost graph a b).getD 0 + chainCost graph (b :: rest2) := by
          rw [chainCost]
        show chainCost graph (a :: b :: (rest2 ++ [v])) = chainCost graph (a :: b :: rest2) + w
        rw [e1, e2,
          show chainCost graph (b :: (rest2 ++ [v])) = chainCost graph (b :: rest2) + w from ihr.2]
        ring

theorem isPathFromTo_snoc {p : List String} {u v : String} {w : ℝ}
    (hp : IsPathFromTo graph p s u) (he : edgeCost graph u v = some w) :
    IsPathFromTo graph (p ++ [v]) s v ∧
      chainCost graph (p ++ [v]) = chainCost graph p + w := by
  rcases hp with ⟨hne, hhead, hlast, hchain⟩
  rcases chain_snoc he p hne hlast hchain with ⟨hc, hcost⟩
  refine ⟨⟨by simp, ?_, ?_, hc⟩, hcost⟩
  · cases p with
    | nil => exact absurd rfl hne
    | cons a rest => exact hhead
  · rw [List.getLast?_append]
    rfl

theorem chainCost_nonneg (hok : AStarGraphOK graph) :
    ∀ p : List String, IsGraphChain graph p → 0 ≤ chainCost graph p := by
  intro p
  induction p with
  | nil => intro _; rw [chainCost]
  | cons a rest ih =>
    intro hc
    cases rest with
    | nil => rw [chainCost]
    | cons b rest2 =>
      rcases Option.isSome_iff_exists.mp hc.1 with ⟨w, hw⟩
      have h1 : chainCost graph (a :: b :: rest2)
          = (edgeCost graph a b).getD 0 + chainCost graph (b :: rest2) := by
        rw [chainCost]
      rw [h1, hw]
      have h2 : 0 ≤ w := edgeCost_nonneg hok hw
      have h3 : 0 ≤ chainCost graph (b :: rest2) := ih hc.2
      simpa using add_nonneg h2 h3

theorem chainCost_take_le (hok : AStarGraphOK graph) :
    ∀ (p : List String), IsGraphChain graph p → ∀ n : ℕ,
      chainCost graph (p.take n) ≤ chainCost graph p := by
  intro p
  induction p with
  | nil =>
    intro _ n
    rw [List.take_nil]
  | cons a rest ih =>
    intro hc n
    cases n with
    | zero =>
      rw [List.take_zero, chainCost]
      exact chainCost_nonneg hok _ hc
    | succ m =>
      rw [List.take_succ_cons]
      cases rest with
      | nil =>
        rw [List.take_nil]
      | cons b rest2 =>
        cases m with
        | zero =>
          rw [List.take_zero, chainCost]
          exact chainCost_nonneg hok _ hc
        | succ m2 =>
          rw [List.take_succ_cons]
          have h1 : chainCost graph (a :: b :: rest2.take m2)
              = (edgeCost graph a b).getD 0 + chainCost graph (b :: rest2.take m2) := by
            rw [chainCost]
          have h2 : chainCost graph (a :: b :: rest2)
              = (edgeCost graph a b).getD 0 + chainCost graph (b :: rest2) := by
            rw [chainCost]
          rw [h1, h2]
          have h3 := ih hc.2 (m2 + 1)
          rw [List.take_succ_cons] at h3
          exact add_le_add_left h3 _

theorem list_to_gwalk : ∀ (p : List String) (u v : String),
    IsPathFromTo graph p u v → GWalk graph u v (chainCost graph p) := by
  intro p
  induction p with
  | nil =>
    intro u v hp
    exact absurd rfl hp.1
  | cons a rest ih =>
    intro u v hp
    rcases hp with ⟨_, hhead, hlast, hchain⟩
    have ha : a = u := by cases hhead; rfl
    subst ha
    cases rest with
    | nil =>
      have hv : a = v := by
        rw [List.getLast?_singleton] at hlast
        cases hlast
        rfl
      subst hv
      rw [chainCost]
      exact GWalk.nil a
    | cons b rest2 =>
      rcases Option.isSome_iff_exists.mp hchain.1 with ⟨w, hw⟩
      have hrest : IsPathFromTo graph (b :: rest2) b v := by
        refine ⟨by simp, rfl, ?_, hchain.2⟩
        rw [List.getLast?_cons_cons] at hlast
        exact hlast
      have h1 : chainCost graph (a :: b :: rest2)
          = (edgeCost graph a b).getD 0 + chainCost graph (b :: rest2) := by
        rw [chainCost]
      rw [h1, hw]
      exact GWalk.cons a b v w _ hw (ih b v hrest)

theorem gwalk_nonneg (hok : AStarGraphOK graph) {u v : String} {r : ℝ}
    (hw : GWalk graph u v r) : 0 ≤ r := by
  induction hw with
  | nil => exact le_refl 0
  | cons u2 v2 t2 c rest he _ ih =>
    exact add_nonneg (edgeCost_nonneg hok he) ih

theorem gwalk_adm (hok : AStarGraphOK graph) {u v : String} {r : ℝ}
    (hw : GWalk graph u v r) (hV : (getNode graph v).isSome) :
    getDistance graph u v ≤ r := by
  induction hw with
  | nil u2 => rw [getDistance_self hV]
  | cons u2 v2 t2 c rest he hrest ih =>
    have hu2 : (getNode graph u2).isSome := by
      rcases edgeCost_mem he with ⟨nd, hnd, _⟩
      rw [hnd]
      rfl
    have hv2 : (getNode graph v2).isSome := edgeCost_target_mem hok he
    calc getDistance graph u2 t2
        ≤ getDistance graph u2 v2 + getDistance graph v2 t2 :=
          getDistance_triangle hu2 hv2 hV
      _ ≤ c + rest := add_le_add (getDistance_le_edge hok he) (ih hV)

/-! ### The frontier bound and its consequences -/

theorem gval_le_coe {g : List (String × WithTop ℝ)} {u : String} {a : ℝ}
    (h : gval g u ≤ (a : WithTop ℝ)) :
    ∃ cu : ℝ, mfind g u = some ((cu : WithTop ℝ)) ∧ cu ≤ a := by
  cases hm : mfind g u with
  | none =>
    exfalso
    rw [gval, hm] at h
    exact (WithTop.not_top_le_coe a) h
  | some v =>
    rw [gval, hm] at h
    have hne : v ≠ ⊤ := by
      intro hv
      rw [hv] at h
      exact (WithTop.not_top_le_coe a) h
    rcases WithTop.ne_top_iff_exists.mp hne with ⟨cu, hcu⟩
    subst hcu
    refine ⟨cu, rfl, ?_⟩
    simpa using h

/-- The central A* frontier bound: along any walk from `u` to the target,
if `u`'s g-score is at most `a`, then either the target's g-score is
already at most `a` plus the walk cost, or the open set holds an entry
whose f-score is at most `a` plus the walk cost. -/
theorem astar_bound (hok : AStarGraphOK graph) (hT : (getNode graph t).isSome)
    {st : AStarState} (hq : ∀ k, qcoverAt graph t st k) :
    ∀ {u v : String} {r : ℝ}, GWalk graph u v r → v = t → ∀ a : ℝ,
      gval st.g_score u ≤ (a : WithTop ℝ) →
      gval st.g_score t ≤ ((a + r : ℝ) : WithTop ℝ) ∨
      ∃ e ∈ st.open_set, e.f_score ≤ ((a + r : ℝ) : WithTop ℝ) := by
  intro u v r hw
  induction hw with
  | nil u2 =>
    intro hveq a ha
    rw [hveq] at ha
    left
    simpa using ha
  | cons u2 v2 t2 c rest he hrest ih =>
    intro hveq a ha
    rw [hveq] at hrest
    rcases gval_le_coe ha with ⟨cu, hcu, hcua⟩
    rcases hq u2 cu hcu with ⟨e, he2, hid, hf⟩ | hrelax
    · right
      refine ⟨e, he2, ?_⟩
      have hd : getDistance graph u2 t ≤ c + rest :=
        gwalk_adm hok (GWalk.cons u2 v2 t c rest he hrest) hT
      calc e.f_score ≤ (cu : WithTop ℝ) + hOf graph t u2 := hf
        _ = ((cu + getDistance graph u2 t : ℝ) : WithTop ℝ) := by
            rw [hOf]
            push_cast
            rfl
        _ ≤ ((a + (c + rest) : ℝ) : WithTop ℝ) := by
            exact_mod_cast add_le_add hcua hd
    · rcases edgeCost_mem he with ⟨nd, hnd, hmem⟩
      have hv := hrelax nd hnd (v2, c) hmem
      have hv2 : gval st.g_score v2 ≤ ((a + c : ℝ) : WithTop ℝ) := by
        calc gval st.g_score v2 ≤ (cu : WithTop ℝ) + (c : WithTop ℝ) := hv
          _ = ((cu + c : ℝ) : WithTop ℝ) := by push_cast; rfl
          _ ≤ ((a + c : ℝ) : WithTop ℝ) := by
              exact_mod_cast add_le_add_right hcua c
      have hassoc : ((a + c) + rest : ℝ) = (a + (c + rest) : ℝ) := by ring
      rcases ih hveq (a + c) hv2 with h | h
      · left
        rwa [hassoc] at h
      · right
        rwa [hassoc] at h

/-- With a walk from `s` to `t` available, the open set can never drain
before the target is popped. -/
theorem astar_no_empty (hok : AStarGraphOK graph) (hT : (getNode graph t).isSome)
    (hconn : (walkCosts graph s t).Nonempty) {st : AStarState}
    (hinv : AInv graph s t st) (hopen : st.open_set = []) : False := by
  rcases hconn with ⟨c, p, hp, hcost⟩
  have hw := list_to_gwalk p s t hp
  rw [hcost] at hw
  have hs0 : gval st.g_score s ≤ ((0 : ℝ) : WithTop ℝ) := by
    rw [gval_eq_of_mfind hinv.1.gstart]
    norm_num
  rcases astar_bound hok hT hinv.2 hw rfl 0 hs0 with h | h
  · rcases gval_le_coe h with ⟨ct, hct, _⟩
    rcases hinv.1.tcover ct hct with ⟨e, he, _⟩
    rw [hopen] at he
    cases he
  · rcases h with ⟨e, he, _⟩
    rw [hopen] at he
    cases he

/-! ### Finiteness of simple costs and the termination measure -/

theorem finite_lists_of_length_le (ks : Finset String) :
    ∀ n : ℕ, {l : List String | l.length ≤ n ∧ ∀ x ∈ l, x ∈ ks}.Finite := by
  intro n
  induction n with
  | zero =>
    apply Set.Finite.subset (Set.finite_singleton ([] : List String))
    intro l hl
    rcases hl with ⟨hlen, _⟩
    simp [List.length_eq_zero.mp (Nat.le_zero.mp hlen)]
  | succ m ih =>
    have hsub : {l : List String | l.length ≤ m + 1 ∧ ∀ x ∈ l, x ∈ ks} ⊆
        {[]} ∪ ⋃ a ∈ ks, (List.cons a) '' {l | l.length ≤ m ∧ ∀ x ∈ l, x ∈ ks} := by
      intro l hl
      rcases hl with ⟨hlen, hmem⟩
      cases l with
      | nil => exact Or.inl rfl
      | cons a rest =>
        right
        refine Set.mem_biUnion (hmem a (by simp)) ?_
        refine ⟨rest, ⟨?_, ?_⟩, rfl⟩
        · simpa using hlen
        · intro x hx
          exact hmem x (List.mem_cons_of_mem _ hx)
    apply Set.Finite.subset _ hsub
    apply Set.Finite.union (Set.finite_singleton _)
    apply Set.Finite.biUnion (ks.finite_toSet)
    intro a _
    exact ih.image _

theorem nodup_length_le_card {ks : Finset String} {l : List String}
    (hnd : l.Nodup) (hmem : ∀ x ∈ l, x ∈ ks) : l.length ≤ ks.card := by
  have h1 : l.toFinset.card = l.length := List.toFinset_card_of_nodup hnd
  have h2 : l.toFinset ⊆ ks := by
    intro x hx
    exact hmem x (List.mem_toFinset.mp hx)
  rw [← h1]
  exact Finset.card_le_card h2

theorem chain_nodes_in_keys (hok : AStarGraphOK graph) :
    ∀ (p : List String), IsGraphChain graph p →
      ∀ a, p.head? = some a → (getNode graph a).isSome →
      ∀ x ∈ p, x ∈ (graph.map Prod.fst).toFinset := by
  intro p
  induction p with
  | nil =>
    intro _ a _ _ x hx
    cases hx
  | cons b rest ih =>
    intro hchain a hhead hasome x hx
    have hab : b = a := by
      rw [List.head?_cons] at hhead
      exact Option.some_injective _ hhead
    subst hab
    rcases List.mem_cons.mp hx with rfl | hx2
    · exact List.mem_toFinset.mpr (mfind_isSome_mem_keys hasome)
    · cases rest with
      | nil => cases hx2
      | cons c rest2 =>
        rcases Option.isSome_iff_exists.mp hchain.1 with ⟨w, hw⟩
        exact ih hchain.2 c rfl (edgeCost_target_mem hok hw) x hx2

theorem path_nodes_in_keys (hok : AStarGraphOK graph)
    (hS : (getNode graph s).isSome) (p : List String) (k : String)
    (hp : IsPathFromTo graph p s k) :
    ∀ x ∈ p, x ∈ (graph.map Prod.fst).toFinset :=
  chain_nodes_in_keys hok p hp.2.2.2 s hp.2.1 hS

theorem simpleCosts_finite (hok : AStarGraphOK graph)
    (hS : (getNode graph s).isSome) : (SimpleCosts graph s).Finite := by
  have hsub : SimpleCosts graph s ⊆ (chainCost graph) ''
      {l : List String | l.length ≤ (graph.map Prod.fst).toFinset.card ∧
        ∀ x ∈ l, x ∈ (graph.map Prod.fst).toFinset} := by
    rintro cval ⟨p, k, hp, hnd, hcost⟩
    refine ⟨p, ⟨?_, ?_⟩, hcost⟩
    · exact nodup_length_le_card hnd (path_nodes_in_keys hok hS p k hp)
    · exact path_nodes_in_keys hok hS p k hp
  exact Set.Finite.subset (Set.Finite.image _ (finite_lists_of_length_le _ _)) hsub

theorem keyMeasure_le (hfin : (SimpleCosts graph s).Finite)
    {g g2 : List (String × WithTop ℝ)} {k : String}
    (h : gval g2 k ≤ gval g k) :
    keyMeasure graph s g2 k ≤ keyMeasure graph s g k := by
  apply Set.ncard_le_ncard
  · intro x hx
    exact ⟨hx.1, lt_of_lt_of_le hx.2 h⟩
  · exact hfin.subset (Set.inter_subset_left)

theorem keyMeasure_lt (hfin : (SimpleCosts graph s).Finite)
    {g g2 : List (String × WithTop ℝ)} {k : String} {cnew : ℝ}
    (hwit : cnew ∈ SimpleCosts graph s)
    (hlt : ((cnew : ℝ) : WithTop ℝ) < gval g k)
    (hnew : gval g2 k = ((cnew : ℝ) : WithTop ℝ)) :
    keyMeasure graph s g2 k < keyMeasure graph s g k := by
  have hsub : SimpleCosts graph s ∩ {x | ((x : ℝ) : WithTop ℝ) < gval g2 k} ⊆
      SimpleCosts graph s ∩ {x | ((x : ℝ) : WithTop ℝ) < gval g k} := by
    intro x hx
    refine ⟨hx.1, ?_⟩
    have h2 : ((x : ℝ) : WithTop ℝ) < ((cnew : ℝ) : WithTop ℝ) := hnew ▸ hx.2
    exact lt_trans h2 hlt
  apply Set.ncard_lt_ncard _ (hfin.subset (Set.inter_subset_left))
  rw [Set.ssubset_iff_of_subset hsub]
  refine ⟨cnew, ⟨hwit, hlt⟩, ?_⟩
  intro hc
  have hc2 : ((cnew : ℝ) : WithTop ℝ) < gval g2 k := hc.2
  rw [hnew] at hc2
  exact lt_irrefl _ hc2

theorem measureR_le (hfin : (SimpleCosts graph s).Finite)
    {st st2 : AStarState}
    (h : ∀ k, gval st2.g_score k ≤ gval st.g_score k) :
    measureR graph s st2 ≤ measureR graph s st := by
  apply Finset.sum_le_sum
  intro k _
  exact keyMeasure_le hfin (h k)

theorem measureR_lt (hfin : (SimpleCosts graph s).Finite)
    {st st2 : AStarState} {k0 : String}
    (hk0 : k0 ∈ (graph.map Prod.fst).toFinset)
    (h : ∀ k, gval st2.g_score k ≤ gval st.g_score k)
    (hstrict : keyMeasure graph s st2.g_score k0 < keyMeasure graph s st.g_score k0) :
    measureR graph s st2 < measureR graph s st := by
  apply Finset.sum_lt_sum
  · intro k _
    exact keyMeasure_le hfin (h k)
  · exact ⟨k0, hk0, hstrict⟩

/-! ### Small helpers for the relaxation step -/

theorem mgetOrInsert_found {β : Type} {m : List (String × β)} {k : String} {v : β}
    (h : mfind m k = some v) (d : β) : mgetOrInsert m k d = (v, m) := by
  rw [mgetOrInsert, h]

theorem getD_append_left {l l2 : List String} {i : ℕ} (h : i < l.length) (d : String) :
    (l ++ l2).getD i d = l.getD i d := by
  induction l generalizing i with
  | nil => cases h
  | cons a rest ih =>
    cases i with
    | zero => rfl
    | succ j =>
      have hj : j < rest.length := by simpa using h
      simpa using ih hj

theorem getD_append_last {l : List String} {x d : String} :
    (l ++ [x]).getD l.length d = x := by
  induction l with
  | nil => rfl
  | cons a rest ih => simpa using ih

theorem take_append_left {l l2 : List String} {n : ℕ} (h : n ≤ l.length) :
    (l ++ l2).take n = l.take n := by
  induction l generalizing n with
  | nil =>
    have hn : n = 0 := Nat.le_zero.mp h
    simp [hn]
  | cons a rest ih =>
    cases n with
    | zero => rfl
    | succ m =>
      have hm : m ≤ rest.length := by simpa using h
      simp [ih hm]

theorem take_snoc_all {l : List String} {x : String} :
    (l ++ [x]).take (l.length + 1) = l ++ [x] := by
  apply List.take_of_length_le
  simp

theorem coe_add_withTop (a b : ℝ) :
    ((a : WithTop ℝ)) + (b : WithTop ℝ) = ((a + b : ℝ) : WithTop ℝ) := by
  push_cast
  rfl

/-! ### Preservation of the fold invariant by one relaxation step -/

theorem relax_step (hok : AStarGraphOK graph)
    {c : String} {node : GraphNode} (hc : getNode graph c = some node)
    {gc : ℝ} {done : List (String × ℝ)} {st : AStarState}
    (hfold : foldInv graph s t c gc done st)
    {nb : String × ℝ} (hmem : nb ∈ node.neighbors) :
    foldInv graph s t c gc (done ++ [nb])
      (relaxNeighbor graph t c ((gc : ℝ) : WithTop ℝ) st nb) ∧
    (∀ k, gval (relaxNeighbor graph t c ((gc : ℝ) : WithTop ℝ) st nb).g_score k ≤
        gval st.g_score k) ∧
    (relaxNeighbor graph t c ((gc : ℝ) : WithTop ℝ) st nb = st ∨
      ∃ cnew : ℝ, cnew ∈ SimpleCosts graph s ∧
        ((cnew : ℝ) : WithTop ℝ) < gval st.g_score nb.1 ∧
        gval (relaxNeighbor graph t c ((gc : ℝ) : WithTop ℝ) st nb).g_score nb.1 =
          ((cnew : ℝ) : WithTop ℝ) ∧
        nb.1 ∈ (graph.map Prod.fst).toFinset) := by
  obtain ⟨hcore, hqc, hcg, hdone⟩ := hfold
  obtain ⟨nd2, hnd2, _⟩ := hok.admissible (c, node) (mfind_mem hc) nb hmem
  have hedge : edgeCost graph c nb.1 = some nb.2 := by
    rw [edgeCost, hc]
    exact mfind_of_mem_nodup (hok.nbKeysNodup (c, node) (mfind_mem hc)) hmem
  have hwnn : 0 ≤ nb.2 := hok.nonneg (c, node) (mfind_mem hc) nb hmem
  have hgcnn : 0 ≤ gc := by
    have h0 := hcore.gnonneg c _ hcg
    exact_mod_cast h0
  obtain ⟨val, hval⟩ := hcore.gdom (nb.1, nd2) (mfind_mem hnd2)
  have hval : mfind st.g_score nb.1 = some val := hval
  have hfound := mgetOrInsert_found hval (0 : WithTop ℝ)
  by_cases hlt : ((gc : ℝ) : WithTop ℝ) + ((nb.2 : ℝ) : WithTop ℝ) < val
  case neg =>
    have hst : relaxNeighbor graph t c ((gc : ℝ) : WithTop ℝ) st nb = st := by
      simp only [relaxNeighbor, hfound]
      rw [if_neg hlt]
    rw [hst]
    refine ⟨⟨hcore, hqc, hcg, ?_⟩, fun k => le_refl _, Or.inl rfl⟩
    intro nb2 hnb2
    rcases List.mem_append.mp hnb2 with h1 | h1
    · exact hdone nb2 h1
    · rcases List.mem_singleton.mp h1 with rfl
      rw [gval_eq_of_mfind hval]
      exact not_lt.mp hlt
  case pos =>
    have hst : relaxNeighbor graph t c ((gc : ℝ) : WithTop ℝ) st nb =
        ⟨st.open_set ++ [⟨nb.1, ((gc + nb.2 : ℝ) : WithTop ℝ) + hOf graph t nb.1⟩],
          massign st.came_from nb.1 c,
          massign st.g_score nb.1 ((gc + nb.2 : ℝ) : WithTop ℝ)⟩ := by
      simp only [relaxNeighbor, hfound, hOf]
      rw [if_pos hlt, coe_add_withTop]
    have hso : (relaxNeighbor graph t c ((gc : ℝ) : WithTop ℝ) st nb).open_set =
        st.open_set ++ [⟨nb.1, ((gc + nb.2 : ℝ) : WithTop ℝ) + hOf graph t nb.1⟩] := by
      rw [hst]
    have hscf : (relaxNeighbor graph t c ((gc : ℝ) : WithTop ℝ) st nb).came_from =
        massign st.came_from nb.1 c := by
      rw [hst]
    have hsg : (relaxNeighbor graph t c ((gc : ℝ) : WithTop ℝ) st nb).g_score =
        massign st.g_score nb.1 ((gc + nb.2 : ℝ) : WithTop ℝ) := by
      rw [hst]
    have hgself : mfind (massign st.g_score nb.1 ((gc + nb.2 : ℝ) : WithTop ℝ)) nb.1
        = some ((gc + nb.2 : ℝ) : WithTop ℝ) := mfind_massign_self _ _ _
    have hne_s : nb.1 ≠ s := by
      intro heq
      rw [heq] at hval
      rw [hcore.gstart] at hval
      have hv0 : (0 : WithTop ℝ) = val := Option.some_injective _ hval
      rw [← hv0] at hlt
      have h0 : (0 : WithTop ℝ) ≤ ((gc : ℝ) : WithTop ℝ) + ((nb.2 : ℝ) : WithTop ℝ) := by
        rw [coe_add_withTop]
        exact_mod_cast add_nonneg hgcnn hwnn
      exact absurd hlt (not_lt.mpr h0)
    have hne_c : nb.1 ≠ c := by
      intro heq
      rw [heq] at hval
      have hv : some val = some ((gc : ℝ) : WithTop ℝ) := hval ▸ hcg
      have hv2 : val = ((gc : ℝ) : WithTop ℝ) := Option.some_injective _ hv
      rw [hv2] at hlt
      have h0 : ((gc : ℝ) : WithTop ℝ) ≤ ((gc : ℝ) : WithTop ℝ) + ((nb.2 : ℝ) : WithTop ℝ) :=
        le_add_of_nonneg_right (by exact_mod_cast hwnn)
      exact absurd hlt (not_lt.mpr h0)
    obtain ⟨pc, hpc, hpcnd, hpccost, hpcpre⟩ := hcore.gsp c gc hcg
    have hnotmem : nb.1 ∉ pc := by
      intro hmem2
      obtain ⟨i, hi, hgi⟩ := List.mem_iff_getElem.mp hmem2
      have hgd : pc.getD i s = nb.1 := by
        rw [List.getD_eq_getElem pc s hi]
        exact hgi
      have hb := hpcpre i hi
      rw [hgd, gval_eq_of_mfind hval] at hb
      have hb2 : chainCost graph (pc.take (i + 1)) ≤ gc :=
        hpccost ▸ chainCost_take_le hok pc hpc.2.2.2 (i + 1)
      have hb3 : val ≤ ((gc : ℝ) : WithTop ℝ) := le_trans hb (by exact_mod_cast hb2)
      have hb4 : val ≤ ((gc : ℝ) : WithTop ℝ) + ((nb.2 : ℝ) : WithTop ℝ) :=
        le_trans hb3 (le_add_of_nonneg_right (by exact_mod_cast hwnn))
      exact absurd hlt (not_lt.mpr hb4)
    have hsnoc := isPathFromTo_snoc hpc hedge
    have hpath2 : IsPathFromTo graph (pc ++ [nb.1]) s nb.1 := hsnoc.1
    have hcost2 : chainCost graph (pc ++ [nb.1]) = gc + nb.2 := by
      rw [hsnoc.2, hpccost]
    have hnd3 : (pc ++ [nb.1]).Nodup := by
      refine List.nodup_append.mpr ⟨hpcnd, List.nodup_singleton _, ?_⟩
      intro a ha hab
      rw [List.mem_singleton] at hab
      subst hab
      exact hnotmem ha
    have hwit : (gc + nb.2) ∈ SimpleCosts graph s := ⟨pc ++ [nb.1], nb.1, hpath2, hnd3, hcost2⟩
    have hmono : ∀ k, gval (massign st.g_score nb.1 ((gc + nb.2 : ℝ) : WithTop ℝ)) k ≤
        gval st.g_score k := by
      intro k
      by_cases hk : k = nb.1
      · subst hk
        rw [gval_massign_self, gval_eq_of_mfind hval, ← coe_add_withTop]
        exact le_of_lt hlt
      · rw [gval_massign_ne _ _ _ _ hk]
    refine ⟨⟨⟨?_, ?_, ?_, ?_, ?_, ?_, ?_, ?_, ?_, ?_, ?_⟩, ?_, ?_, ?_⟩, ?_, ?_⟩
    · -- gdom
      intro nd hnd
      rw [hsg]
      by_cases hk : nd.1 = nb.1
      · rw [hk]
        exact ⟨_, hgself⟩
      · obtain ⟨cv, hcv⟩ := hcore.gdom nd hnd
        rw [mfind_massign_ne _ _ _ _ hk]
        exact ⟨cv, hcv⟩
    · -- gdom2
      intro k cv hcv
      rw [hsg] at hcv
      by_cases hk : k = nb.1
      · subst hk
        rw [hnd2]
        rfl
      · rw [mfind_massign_ne _ _ _ _ hk] at hcv
        exact hcore.gdom2 k cv hcv
    · -- gstart
      rw [hsg, mfind_massign_ne _ _ _ _ (Ne.symm hne_s)]
      exact hcore.gstart
    · -- gnonneg
      intro k cv hcv
      rw [hsg] at hcv
      by_cases hk : k = nb.1
      · subst hk
        rw [mfind_massign_self] at hcv
        have h2 : ((gc + nb.2 : ℝ) : WithTop ℝ) = cv := Option.some_injective _ hcv
        rw [← h2]
        exact_mod_cast add_nonneg hgcnn hwnn
      · rw [mfind_massign_ne _ _ _ _ hk] at hcv
        exact hcore.gnonneg k cv hcv
    · -- gsp
      intro k cv hcv
      rw [hsg] at hcv ⊢
      by_cases hk : k = nb.1
      · subst hk
        rw [mfind_massign_self] at hcv
        have h2 : ((gc + nb.2 : ℝ) : WithTop ℝ) = ((cv : ℝ) : WithTop ℝ) :=
          Option.some_injective _ hcv
        have h3 : cv = gc + nb.2 := by exact_mod_cast h2.symm
        subst h3
        refine ⟨pc ++ [nb.1], hpath2, hnd3, hcost2, ?_⟩
        intro i hi
        rw [List.length_append, List.length_singleton] at hi
        by_cases hilt : i < pc.length
        · rw [getD_append_left hilt, take_append_left (by omega)]
          exact le_trans (hmono _) (hpcpre i hilt)
        · have hieq : i = pc.length := by omega
          subst hieq
          rw [getD_append_last, take_snoc_all, gval_massign_self, hcost2]
      · rw [mfind_massign_ne _ _ _ _ hk] at hcv
        obtain ⟨p, hp, hpnd, hpcost, hppre⟩ := hcore.gsp k cv hcv
        exact ⟨p, hp, hpnd, hpcost, fun i hi => le_trans (hmono _) (hppre i hi)⟩
    · -- qgood
      intro e he
      rw [hso] at he
      rw [hsg]
      rcases List.mem_append.mp he with h1 | h1
      · obtain ⟨ce, hce, hcef⟩ := hcore.qgood e h1
        by_cases hk : e.id = nb.1
        · refine ⟨gc + nb.2, ?_, ?_⟩
          · rw [hk]
            exact hgself
          · have hvale : val = ((ce : ℝ) : WithTop ℝ) := by
              rw [hk] at hce
              rw [hval] at hce
              exact Option.some_injective _ hce
            have h1e : ((gc + nb.2 : ℝ) : WithTop ℝ) ≤ ((ce : ℝ) : WithTop ℝ) := by
              rw [← hvale, ← coe_add_withTop]
              exact le_of_lt hlt
            exact le_trans (add_le_add_right h1e _) hcef
        · refine ⟨ce, ?_, hcef⟩
          rw [mfind_massign_ne _ _ _ _ hk]
          exact hce
      · rcases List.mem_singleton.mp h1 with rfl
        exact ⟨gc + nb.2, hgself, le_refl _⟩
    · -- tcover
      intro cv hcv
      rw [hsg] at hcv
      by_cases hk : nb.1 = t
      · refine ⟨⟨nb.1, ((gc + nb.2 : ℝ) : WithTop ℝ) + hOf graph t nb.1⟩, ?_, hk, ?_⟩
        · rw [hso]
          exact List.mem_append_right _ (List.mem_singleton_self _)
        · rw [← hk, mfind_massign_self] at hcv
          have h2 : ((gc + nb.2 : ℝ) : WithTop ℝ) = ((cv : ℝ) : WithTop ℝ) :=
            Option.some_injective _ hcv
          show ((gc + nb.2 : ℝ) : WithTop ℝ) + hOf graph t nb.1 ≤
            ((cv : ℝ) : WithTop ℝ) + hOf graph t t
          rw [hk, h2]
      · rw [mfind_massign_ne _ _ _ _ (Ne.symm hk)] at hcv
        obtain ⟨e, he, heid, hef⟩ := hcore.tcover cv hcv
        refine ⟨e, ?_, heid, hef⟩
        rw [hso]
        exact List.mem_append_left _ he
    · -- cfedge
      intro k pk hpk
      rw [hscf] at hpk
      rw [hsg]
      by_cases hk : k = nb.1
      · subst hk
        rw [mfind_massign_self] at hpk
        have hpke : c = pk := Option.some_injective _ hpk
        subst hpke
        refine ⟨nb.2, hedge, ?_, ?_⟩
        · rw [gval_massign_self, gval_massign_ne _ _ _ _ (Ne.symm hne_c),
            gval_eq_of_mfind hcg, coe_add_withTop]
        · rw [gval_massign_self]
          exact WithTop.coe_ne_top
      · rw [mfind_massign_ne _ _ _ _ hk] at hpk
        obtain ⟨w, hw, hwle, hwne⟩ := hcore.cfedge k pk hpk
        refine ⟨w, hw, ?_, ?_⟩
        · rw [gval_massign_ne _ _ _ _ hk]
          exact le_trans (add_le_add_right (hmono pk) _) hwle
        · rw [gval_massign_ne _ _ _ _ hk]
          exact hwne
    · -- cfstart
      rw [hscf, mfind_massign_ne _ _ _ _ (Ne.symm hne_s)]
      exact hcore.cfstart
    · -- cftotal
      intro k cv hcv hks
      rw [hscf]
      rw [hsg] at hcv
      by_cases hk : k = nb.1
      · subst hk
        rw [mfind_massign_self]
        rfl
      · rw [mfind_massign_ne _ _ _ _ hk] at hcv
        rw [mfind_massign_ne _ _ _ _ hk]
        exact hcore.cftotal k cv hcv hks
    · -- cftime
      obtain ⟨tau, htau⟩ := hcore.cftime
      refine ⟨Function.update tau nb.1 (tau c + 1), ?_⟩
      intro k pk w hpk hw hgeq
      rw [hscf] at hpk
      rw [hsg] at hgeq
      by_cases hk : k = nb.1
      · subst hk
        rw [mfind_massign_self] at hpk
        have hpke : c = pk := Option.some_injective _ hpk
        subst hpke
        rw [Function.update_same, Function.update_noteq (Ne.symm hne_c)]
        omega
      · rw [mfind_massign_ne _ _ _ _ hk] at hpk
        by_cases hpk1 : pk = nb.1
        · exfalso
          subst hpk1
          obtain ⟨w2, hw2, hwle2, _⟩ := hcore.cfedge k nb.1 hpk
          have hww : w = w2 := by
            rw [hw] at hw2
            exact Option.some_injective _ hw2
          subst hww
          rw [gval_massign_ne _ _ _ _ hk, gval_massign_self] at hgeq
          rw [gval_eq_of_mfind hval, hgeq] at hwle2
          have hlt2 : ((gc + nb.2 : ℝ) : WithTop ℝ) + ((w : ℝ) : WithTop ℝ) <
              val + ((w : ℝ) : WithTop ℝ) := by
            apply WithTop.add_lt_add_right WithTop.coe_ne_top
            rw [← coe_add_withTop]
            exact hlt
          exact absurd hwle2 (not_le.mpr hlt2)
        · rw [gval_massign_ne _ _ _ _ hk, gval_massign_ne _ _ _ _ hpk1] at hgeq
          rw [Function.update_noteq hpk1, Function.update_noteq hk]
          exact htau k pk w hpk hw hgeq
    · -- qcover except c
      intro k hkc cv hcv
      rw [hsg] at hcv
      by_cases hk : k = nb.1
      · subst hk
        rw [mfind_massign_self] at hcv
        have h2 : ((gc + nb.2 : ℝ) : WithTop ℝ) = ((cv : ℝ) : WithTop ℝ) :=
          Option.some_injective _ hcv
        left
        refine ⟨⟨nb.1, ((gc + nb.2 : ℝ) : WithTop ℝ) + hOf graph t nb.1⟩, ?_, rfl, ?_⟩
        · rw [hso]
          exact List.mem_append_right _ (List.mem_singleton_self _)
        · show ((gc + nb.2 : ℝ) : WithTop ℝ) + hOf graph t nb.1 ≤
            ((cv : ℝ) : WithTop ℝ) + hOf graph t nb.1
          rw [h2]
      · rw [mfind_massign_ne _ _ _ _ hk] at hcv
        rcases hqc k hkc cv hcv with h1 | h1
        · obtain ⟨e, he, heid, hef⟩ := h1
          refine Or.inl ⟨e, ?_, heid, hef⟩
          rw [hso]
          exact List.mem_append_left _ he
        · refine Or.inr ?_
          intro nd hnd4 nb2 hnb2
          rw [hsg]
          exact le_trans (hmono _) (h1 nd hnd4 nb2 hnb2)
    · -- c's g-score is stable
      rw [hsg, mfind_massign_ne _ _ _ _ (Ne.symm hne_c)]
      exact hcg
    · -- processed prefix
      intro nb2 hnb2
      rw [hsg]
      rcases List.mem_append.mp hnb2 with h1 | h1
      · exact le_trans (hmono _) (hdone nb2 h1)
      · rcases List.mem_singleton.mp h1 with rfl
        rw [gval_massign_self, coe_add_withTop]
    · -- g-scores do not increase
      intro k
      rw [hsg]
      exact hmono k
    · -- a strict improvement happened at nb.1
      refine Or.inr ⟨gc + nb.2, hwit, ?_, ?_, ?_⟩
      · rw [gval_eq_of_mfind hval, ← coe_add_withTop]
        exact hlt
      · rw [hsg, gval_massign_self]
      · exact List.mem_toFinset.mpr
          (mfind_isSome_mem_keys (Option.isSome_iff_exists.mpr ⟨nd2, hnd2⟩))

theorem relax_fold (hok : AStarGraphOK graph) (hfin : (SimpleCosts graph s).Finite)
    {c : String} {node : GraphNode} (hc : getNode graph c = some node) {gc : ℝ} :
    ∀ (nbs done : List (String × ℝ)) (st : AStarState),
      (∀ nb ∈ nbs, nb ∈ node.neighbors) →
      foldInv graph s t c gc done st →
      foldInv graph s t c gc (done ++ nbs)
        (nbs.foldl (relaxNeighbor graph t c ((gc : ℝ) : WithTop ℝ)) st) ∧
      (∀ k, gval (nbs.foldl (relaxNeighbor graph t c ((gc : ℝ) : WithTop ℝ)) st).g_score k ≤
          gval st.g_score k) ∧
      (nbs.foldl (relaxNeighbor graph t c ((gc : ℝ) : WithTop ℝ)) st = st ∨
        measureR graph s (nbs.foldl (relaxNeighbor graph t c ((gc : ℝ) : WithTop ℝ)) st) <
          measureR graph s st) := by
  intro nbs
  induction nbs with
  | nil =>
    intro done st _ hfold
    rw [List.append_nil]
    exact ⟨hfold, fun k => le_refl _, Or.inl rfl⟩
  | cons nb rest ih =>
    intro done st hnbs hfold
    have hnb : nb ∈ node.neighbors := hnbs nb (List.mem_cons_self _ _)
    obtain ⟨hfold1, hmono1, hcase1⟩ := relax_step hok hc hfold hnb
    obtain ⟨hfold2, hmono2, hcase2⟩ :=
      ih (done ++ [nb]) (relaxNeighbor graph t c ((gc : ℝ) : WithTop ℝ) st nb)
        (fun x hx => hnbs x (List.mem_cons_of_mem _ hx)) hfold1
    rw [List.append_assoc] at hfold2
    rw [List.foldl_cons]
    refine ⟨hfold2, fun k => le_trans (hmono2 k) (hmono1 k), ?_⟩
    rcases hcase1 with heq1 | ⟨cnew, hwit, hltc, hnewc, hkey⟩
    · rw [heq1] at hcase2 ⊢
      exact hcase2
    · right
      have hm1 : measureR graph s (relaxNeighbor graph t c ((gc : ℝ) : WithTop ℝ) st nb) <
          measureR graph s st :=
        measureR_lt hfin hkey hmono1 (keyMeasure_lt hfin hwit hltc hnewc)
      rcases hcase2 with heq2 | hlt2
      · rw [heq2]
        exact hm1
      · exact lt_trans hlt2 hm1

/-- One non-target loop iteration (pop of `cur` followed by the full
neighbor fold) restores the invariant and makes lexicographic progress in
`(measureR, open-set length)`. -/
theorem loop_iter (hok : AStarGraphOK graph) (hfin : (SimpleCosts graph s).Finite)
    {st : AStarState} {cur : NodeScore} {rest : List NodeScore}
    (hinv : AInv graph s t st)
    (hpop : popMin st.open_set = some (cur, rest)) (hnet : cur.id ≠ t)
    {node : GraphNode} (hnode : getNode graph cur.id = some node)
    {gcur : ℝ} (hgcur : mfind st.g_score cur.id = some ((gcur : ℝ) : WithTop ℝ)) :
    AInv graph s t
      (node.neighbors.foldl (relaxNeighbor graph t cur.id ((gcur : ℝ) : WithTop ℝ))
        ⟨rest, st.came_from, st.g_score⟩) ∧
    (measureR graph s
        (node.neighbors.foldl (relaxNeighbor graph t cur.id ((gcur : ℝ) : WithTop ℝ))
          ⟨rest, st.came_from, st.g_score⟩) < measureR graph s st ∨
      (measureR graph s
          (node.neighbors.foldl (relaxNeighbor graph t cur.id ((gcur : ℝ) : WithTop ℝ))
            ⟨rest, st.came_from, st.g_score⟩) = measureR graph s st ∧
        (node.neighbors.foldl (relaxNeighbor graph t cur.id ((gcur : ℝ) : WithTop ℝ))
            ⟨rest, st.came_from, st.g_score⟩).open_set.length < st.open_set.length)) := by
  obtain ⟨hcore, hq⟩ := hinv
  have hperm := popMin_perm hpop
  have hfold0 : foldInv graph s t cur.id gcur []
      (⟨rest, st.came_from, st.g_score⟩ : AStarState) := by
    refine ⟨⟨hcore.gdom, hcore.gdom2, hcore.gstart, hcore.gnonneg, hcore.gsp, ?_, ?_,
      hcore.cfedge, hcore.cfstart, hcore.cftotal, hcore.cftime⟩, ?_, hgcur, ?_⟩
    · -- qgood on the reduced open set
      intro e he
      exact hcore.qgood e (hperm.mem_iff.mpr (List.mem_cons_of_mem _ he))
    · -- tcover survives the pop because the popped entry is not a target entry
      intro cv hcv
      obtain ⟨e, he, heid, hef⟩ := hcore.tcover cv hcv
      rcases List.mem_cons.mp (hperm.mem_iff.mp he) with rfl | he2
      · exact absurd heid hnet
      · exact ⟨e, he2, heid, hef⟩
    · -- queue cover everywhere except the popped key
      intro k hk cv hcv
      rcases hq k cv hcv with h1 | h1
      · obtain ⟨e, he, heid, hef⟩ := h1
        rcases List.mem_cons.mp (hperm.mem_iff.mp he) with rfl | he2
        · exact absurd heid (Ne.symm hk)
        · exact Or.inl ⟨e, he2, heid, hef⟩
      · exact Or.inr h1
    · intro nb hnb
      exact absurd hnb (List.not_mem_nil _)
  obtain ⟨hfold2, hmono2, hcase⟩ := relax_fold hok hfin hnode node.neighbors []
    (⟨rest, st.came_from, st.g_score⟩ : AStarState) (fun nb h => h) hfold0
  obtain ⟨hcore2, hqc2, hstab2, hdone2⟩ := hfold2
  constructor
  · refine ⟨hcore2, ?_⟩
    intro k
    by_cases hk : k = cur.id
    · subst hk
      intro cv hcv
      rw [hstab2] at hcv
      have hcve : ((gcur : ℝ) : WithTop ℝ) = ((cv : ℝ) : WithTop ℝ) :=
        Option.some_injective _ hcv
      refine Or.inr ?_
      intro nd hnd nb hnb
      have hndeq : nd = node := by
        rw [hnode] at hnd
        exact (Option.some_injective _ hnd).symm
      subst hndeq
      have hrel := hdone2 nb (by simpa using hnb)
      rw [← hcve]
      exact hrel
    · exact hqc2 k hk
  · have hlen : st.open_set.length = rest.length + 1 := by
      rw [hperm.length_eq]
      rfl
    rcases hcase with heq | hlt
    · refine Or.inr ⟨?_, ?_⟩
      · rw [heq]
        rfl
      · rw [heq]
        show rest.length < st.open_set.length
        omega
    · exact Or.inl hlt

/-! ### Step equations for the two fuel-indexed loops -/

theorem reconstructWalk_succ_none {fuel : ℕ} {cf : List (String × String)}
    {u : String} {acc : List String} (hm : mfind cf u = none) :
    reconstructWalk (fuel + 1) cf u acc = some acc := by
  rw [reconstructWalk, hm]

theorem reconstructWalk_succ_some {fuel : ℕ} {cf : List (String × String)}
    {u pk : String} {acc : List String} (hm : mfind cf u = some pk) :
    reconstructWalk (fuel + 1) cf u acc = reconstructWalk fuel cf pk (acc ++ [u]) := by
  rw [reconstructWalk, hm]

theorem astarLoop_succ_none {fuel : ℕ} {st : AStarState}
    (h : popMin st.open_set = none) :
    astarLoop graph s t (fuel + 1) st = some [] := by
  rw [astarLoop, h]

theorem astarLoop_succ_target {fuel : ℕ} {st : AStarState} {cur : NodeScore}
    {rest : List NodeScore} (h : popMin st.open_set = some (cur, rest))
    (ht : cur.id = t) :
    astarLoop graph s t (fuel + 1) st =
      match reconstructWalk fuel st.came_from cur.id [] with
      | some path => some ((path ++ [s]).reverse)
      | none => none := by
  simp only [astarLoop, h]
  rw [if_pos ht]

theorem astarLoop_succ_else {fuel : ℕ} {st : AStarState} {cur : NodeScore}
    {rest : List NodeScore} {node : GraphNode} {gcur : ℝ}
    (h : popMin st.open_set = some (cur, rest)) (hnt : ¬cur.id = t)
    (hnode : getNode graph cur.id = some node)
    (hg : mfind st.g_score cur.id = some ((gcur : ℝ) : WithTop ℝ)) :
    astarLoop graph s t (fuel + 1) st =
      astarLoop graph s t fuel
        (node.neighbors.foldl (relaxNeighbor graph t cur.id ((gcur : ℝ) : WithTop ℝ))
          ⟨rest, st.came_from, st.g_score⟩) := by
  have hfound := mgetOrInsert_found hg (0 : WithTop ℝ)
  simp only [astarLoop, h, hfound, hnode]
  rw [if_neg hnt]

/-! ### Fuel monotonicity and the reconstruction accumulator -/

theorem reconstructWalk_mono : ∀ (fuel : ℕ) (cf : List (String × String))
    (u : String) (acc : List String) {res : List String},
    reconstructWalk fuel cf u acc = some res →
    reconstructWalk (fuel + 1) cf u acc = some res := by
  intro fuel
  induction fuel with
  | zero =>
    intro cf u acc res h
    cases h
  | succ n ih =>
    intro cf u acc res h
    cases hm : mfind cf u with
    | none =>
      rw [reconstructWalk_succ_none hm] at h
      rw [reconstructWalk_succ_none hm]
      exact h
    | some pk =>
      rw [reconstructWalk_succ_some hm] at h
      rw [reconstructWalk_succ_some hm]
      exact ih cf pk _ h

theorem reconstructWalk_acc : ∀ (fuel : ℕ) (cf : List (String × String))
    (u : String) (acc : List String),
    reconstructWalk fuel cf u acc =
      (reconstructWalk fuel cf u []).map (fun r => acc ++ r) := by
  intro fuel
  induction fuel with
  | zero =>
    intro cf u acc
    rfl
  | succ n ih =>
    intro cf u acc
    cases hm : mfind cf u with
    | none =>
      rw [reconstructWalk_succ_none hm, reconstructWalk_succ_none hm]
      simp
    | some pk =>
      rw [reconstructWalk_succ_some hm, reconstructWalk_succ_some hm]
      rw [ih cf pk (acc ++ [u]), ih cf pk ([] ++ [u]), Option.map_map]
      congr 1
      funext r
      simp

theorem astarLoop_mono : ∀ (fuel : ℕ) (st : AStarState) {res : List String},
    astarLoop graph s t fuel st = some res →
    astarLoop graph s t (fuel + 1) st = some res := by
  intro fuel
  induction fuel with
  | zero =>
    intro st res h
    cases h
  | succ n ih =>
    intro st res h
    cases hpop : popMin st.open_set with
    | none =>
      rw [astarLoop_succ_none hpop] at h
      rw [astarLoop_succ_none hpop]
      exact h
    | some pr =>
      rcases pr with ⟨cur, rest⟩
      by_cases ht : cur.id = t
      · rw [astarLoop_succ_target hpop ht] at h
        rw [astarLoop_succ_target hpop ht]
        cases hrec : reconstructWalk n st.came_from cur.id [] with
        | none =>
          rw [hrec] at h
          cases h
        | some path =>
          rw [hrec] at h
          rw [reconstructWalk_mono n st.came_from cur.id [] hrec]
          exact h
      · -- the non-target branch: the popped entry has a finite g-score
        cases hnode : getNode graph cur.id with
        | none =>
          exfalso
          have hfound := mgetOrInsert st.g_score cur.id (0 : WithTop ℝ)
          rw [astarLoop, hpop] at h
          simp only at h
          rw [if_neg ht] at h
          rw [hnode] at h
          cases h
        | some node =>
          cases hg : mfind st.g_score cur.id with
          | none =>
            -- the `operator[]` default-insert path: read value 0
            have hzero : mgetOrInsert st.g_score cur.id (0 : WithTop ℝ) =
                ((0 : WithTop ℝ), st.g_score ++ [(cur.id, 0)]) := by
              rw [mgetOrInsert, hg]
            rw [astarLoop, hpop] at h ⊢
            simp only at h ⊢
            rw [if_neg ht, hzero, hnode] at h ⊢
            simp only at h ⊢
            exact ih _ h
          | some gv =>
            have hfound : mgetOrInsert st.g_score cur.id (0 : WithTop ℝ) =
                (gv, st.g_score) := mgetOrInsert_found hg _
            rw [astarLoop, hpop] at h ⊢
            simp only at h ⊢
            rw [if_neg ht, hfound, hnode] at h ⊢
            simp only at h ⊢
            exact ih _ h

/-! ### Termination of the reconstruction loop -/

theorem recMeasure_parent_lt (hok : AStarGraphOK graph) {st : AStarState}
    (hcore : AInvCore graph s t st) {tau : String → ℕ}
    (htau : ∀ k pk w, mfind st.came_from k = some pk → edgeCost graph pk k = some w →
      gval st.g_score k = gval st.g_score pk + ((w : ℝ) : WithTop ℝ) → tau pk < tau k)
    {u pk : String} (hpk : mfind st.came_from u = some pk)
    (hpk2 : (mfind st.came_from pk).isSome) :
    recMeasure st tau pk < recMeasure st tau u := by
  obtain ⟨w, hw, hle, hne⟩ := hcore.cfedge u pk hpk
  have hwnn : 0 ≤ w := edgeCost_nonneg hok hw
  have hple : gval st.g_score pk ≤ gval st.g_score u :=
    le_trans (le_add_of_nonneg_right (by exact_mod_cast hwnn)) hle
  have hlex : pk ∈ lexBelow st.g_score tau u := by
    rcases lt_or_eq_of_le hple with hlt | heq
    · exact Or.inl hlt
    · refine Or.inr ⟨heq, ?_⟩
      have htight : gval st.g_score u = gval st.g_score pk + ((w : ℝ) : WithTop ℝ) := by
        refine le_antisymm ?_ hle
        rw [← heq]
        exact le_add_of_nonneg_right (by exact_mod_cast hwnn)
      exact htau u pk w hpk hw htight
  have hsub : lexBelow st.g_score tau pk ⊆ lexBelow st.g_score tau u := by
    intro v hv
    rcases hlex with hl1 | ⟨he1, ht1⟩
    · rcases hv with hv1 | ⟨hv1, _⟩
      · exact Or.inl (lt_trans hv1 hl1)
      · exact Or.inl (by rw [hv1]; exact hl1)
    · rcases hv with hv1 | ⟨hv1, hv2⟩
      · exact Or.inl (by rw [← he1]; exact hv1)
      · exact Or.inr ⟨hv1.trans he1, lt_trans hv2 ht1⟩
  have hfin2 : (lexBelow st.g_score tau u ∩ {v | (mfind st.came_from v).isSome}).Finite := by
    apply Set.Finite.subset ((st.came_from.map Prod.fst).toFinset.finite_toSet)
    intro v hv
    exact List.mem_toFinset.mpr (mfind_isSome_mem_keys hv.2)
  rw [recMeasure, recMeasure]
  apply Set.ncard_lt_ncard _ hfin2
  rw [Set.ssubset_iff_of_subset (Set.inter_subset_inter_left _ hsub)]
  refine ⟨pk, ⟨hlex, hpk2⟩, ?_⟩
  intro hcon
  rcases hcon.1 with h1 | ⟨_, h2⟩
  · exact lt_irrefl _ h1
  · exact lt_irrefl _ h2

/-- Correctness of the reconstruction loop: from any key `u` with a
finite g-score, following `came_from` terminates at `s` and yields (after
the final push of `s` and the reverse) a walk from `s` to `u` whose cost
is at most `u`'s g-score. -/
theorem reconstruct_spec (hok : AStarGraphOK graph) {st : AStarState}
    (hcore : AInvCore graph s t st) {tau : String → ℕ}
    (htau : ∀ k pk w, mfind st.came_from k = some pk → edgeCost graph pk k = some w →
      gval st.g_score k = gval st.g_score pk + ((w : ℝ) : WithTop ℝ) → tau pk < tau k) :
    ∀ (n : ℕ) (u : String) (cu : ℝ),
      mfind st.g_score u = some ((cu : ℝ) : WithTop ℝ) →
      recMeasure st tau u ≤ n →
      ∃ res, reconstructWalk (n + 2) st.came_from u [] = some res ∧
        IsPathFromTo graph ((res ++ [s]).reverse) s u ∧
        chainCost graph ((res ++ [s]).reverse) ≤ cu := by
  intro n
  induction n using Nat.strong_induction_on with
  | _ n ih =>
    intro u cu hcu hrec
    cases hm : mfind st.came_from u with
    | none =>
      have hus : u = s := by
        by_contra hne2
        have hh := hcore.cftotal u cu hcu hne2
        rw [hm] at hh
        simp at hh
      refine ⟨[], reconstructWalk_succ_none hm, ?_, ?_⟩
      · simp only [List.nil_append, List.reverse_singleton]
        rw [hus]
        exact isPathFromTo_single s
      · simp only [List.nil_append, List.reverse_singleton]
        have h0 := hcore.gnonneg u _ hcu
        have h1 : (0 : ℝ) ≤ cu := by exact_mod_cast h0
        show chainCost graph [s] ≤ cu
        rw [chainCost]
        exact h1
    | some pk =>
      obtain ⟨w, hw, hle, hne⟩ := hcore.cfedge u pk hm
      have hpkfin : gval st.g_score pk ≠ ⊤ := by
        intro htop
        rw [htop, top_add] at hle
        exact hne (top_le_iff.mp hle)
      obtain ⟨cpk, hcpk⟩ : ∃ cpk : ℝ, mfind st.g_score pk = some ((cpk : ℝ) : WithTop ℝ) := by
        cases hmp : mfind st.g_score pk with
        | none =>
          exfalso
          apply hpkfin
          rw [gval, hmp]
          rfl
        | some v =>
          cases v with
          | top =>
            exfalso
            apply hpkfin
            rw [gval, hmp]
            rfl
          | coe cpk => exact ⟨cpk, rfl⟩
      have hlecast : cpk + w ≤ cu := by
        rw [gval_eq_of_mfind hcpk, gval_eq_of_mfind hcu, coe_add_withTop] at hle
        exact_mod_cast hle
      cases hmp2 : mfind st.came_from pk with
      | none =>
        have hps : pk = s := by
          by_contra hne2
          have hh := hcore.cftotal pk cpk hcpk hne2
          rw [hmp2] at hh
          simp at hh
        rw [hps] at hw hcpk
        have hstep1 : reconstructWalk (n + 2) st.came_from u [] =
            reconstructWalk (n + 1) st.came_from pk ([] ++ [u]) :=
          reconstructWalk_succ_some hm
        have hstep2 : reconstructWalk (n + 1) st.came_from pk ([] ++ [u]) =
            some ([] ++ [u]) := reconstructWalk_succ_none hmp2
        have hc0 : cpk = 0 := by
          have hh : some ((0 : ℝ) : WithTop ℝ) = some ((cpk : ℝ) : WithTop ℝ) := by
            rw [← hcpk]
            exact hcore.gstart.symm
          exact_mod_cast (Option.some_injective _ hh).symm
        refine ⟨[u], ?_, ?_, ?_⟩
        · rw [hstep1, hstep2]
          rfl
        · show IsPathFromTo graph [s, u] s u
          refine ⟨by simp, rfl, by simp, ?_⟩
          rw [IsGraphChain]
          refine ⟨by rw [hw]; rfl, ?_⟩
          rw [IsGraphChain]
          trivial
        · show chainCost graph [s, u] ≤ cu
          have hcc : chainCost graph [s, u] = w := by
            rw [chainCost, hw]
            rw [chainCost]
            simp
          rw [hcc]
          rw [hc0] at hlecast
          linarith
      | some pk2 =>
        have hpk2s : (mfind st.came_from pk).isSome := by
          rw [hmp2]
          rfl
        have hltm := recMeasure_parent_lt hok hcore htau hm hpk2s
        have hn1 : 1 ≤ n := by omega
        obtain ⟨res2, hres2, hpath2, hcost2⟩ := ih (n - 1) (by omega) pk cpk hcpk (by omega)
        have hfe : n - 1 + 2 = n + 1 := by omega
        rw [hfe] at hres2
        have hrw : ((u :: res2) ++ [s]).reverse = ((res2 ++ [s]).reverse) ++ [u] := by
          rw [List.cons_append, List.reverse_cons]
        have hsnoc := isPathFromTo_snoc hpath2 hw
        refine ⟨u :: res2, ?_, ?_, ?_⟩
        · have hstep1 : reconstructWalk (n + 2) st.came_from u [] =
              reconstructWalk (n + 1) st.came_from pk ([] ++ [u]) :=
            reconstructWalk_succ_some hm
          rw [hstep1, reconstructWalk_acc, hres2]
          rfl
        · rw [hrw]
          exact hsnoc.1
        · rw [hrw, hsnoc.2]
          linarith

/-- Popping the target returns a reconstructed optimal path. -/
theorem target_pop (hok : AStarGraphOK graph) (hT : (getNode graph t).isSome)
    {st : AStarState} {cur : NodeScore} {rest : List NodeScore}
    (hinv : AInv graph s t st) (hpop : popMin st.open_set = some (cur, rest))
    (ht : cur.id = t) :
    ∃ fuel res, astarLoop graph s t fuel st = some res ∧ GoodPath graph s t res := by
  obtain ⟨hcore, hq⟩ := hinv
  have hcur : cur ∈ st.open_set := (popMin_perm hpop).mem_iff.mpr (List.mem_cons_self _ _)
  obtain ⟨ct, hct, hctf⟩ := hcore.qgood cur hcur
  rw [ht] at hct hctf
  have hzero : hOf graph t t = ((0 : ℝ) : WithTop ℝ) := by
    rw [hOf, getDistance_self hT]
  have hctf2 : ((ct : ℝ) : WithTop ℝ) ≤ cur.f_score := by
    have h2 := hctf
    rw [hzero] at h2
    calc ((ct : ℝ) : WithTop ℝ) = ((ct : ℝ) : WithTop ℝ) + ((0 : ℝ) : WithTop ℝ) := by
          rw [coe_add_withTop]
          norm_num
      _ ≤ cur.f_score := h2
  have hlb : ∀ r ∈ walkCosts graph s t, ct ≤ r := by
    rintro r ⟨p, hp, hcost⟩
    have hw := list_to_gwalk p s t hp
    rw [hcost] at hw
    have h0 : gval st.g_score s ≤ ((0 : ℝ) : WithTop ℝ) := by
      rw [gval_eq_of_mfind hcore.gstart]
      simp
    rcases astar_bound hok hT hq hw rfl 0 h0 with hcase | ⟨e, he, hef⟩
    · rw [gval_eq_of_mfind hct] at hcase
      have h1 : ct ≤ 0 + r := by exact_mod_cast hcase
      linarith
    · have h1 : cur.f_score ≤ ((0 + r : ℝ) : WithTop ℝ) :=
        le_trans (popMin_min hpop e he) hef
      have h4 : ((ct : ℝ) : WithTop ℝ) ≤ ((0 + r : ℝ) : WithTop ℝ) := le_trans hctf2 h1
      have h5 : ct ≤ 0 + r := by exact_mod_cast h4
      linarith
  obtain ⟨tau, htau⟩ := hcore.cftime
  obtain ⟨res, hres, hpath, hcost⟩ :=
    reconstruct_spec hok hcore htau (recMeasure st tau t) t ct hct (le_refl _)
  have hmem : chainCost graph ((res ++ [s]).reverse) ∈ walkCosts graph s t := ⟨_, hpath, rfl⟩
  refine ⟨recMeasure st tau t + 2 + 1, (res ++ [s]).reverse, ?_, hpath, hmem, ?_⟩
  · rw [astarLoop_succ_target hpop ht, ht, hres]
  · intro r hr
    exact le_trans hcost (hlb r hr)

/-- The main loop terminates from any invariant state with an optimal
path, by lexicographic induction on `(measureR, open-set length)`. -/
theorem astarLoop_terminates (hok : AStarGraphOK graph)
    (hT : (getNode graph t).isSome) (hconn : (walkCosts graph s t).Nonempty)
    (hfin : (SimpleCosts graph s).Finite) :
    ∀ (st : AStarState), AInv graph s t st →
      ∃ fuel res, astarLoop graph s t fuel st = some res ∧ GoodPath graph s t res := by
  suffices h : ∀ (n m : ℕ) (st : AStarState), measureR graph s st ≤ n →
      st.open_set.length ≤ m → AInv graph s t st →
      ∃ fuel res, astarLoop graph s t fuel st = some res ∧ GoodPath graph s t res by
    intro st hinv
    exact h (measureR graph s st) st.open_set.length st (le_refl _) (le_refl _) hinv
  intro n
  induction n using Nat.strong_induction_on with
  | _ n ihn =>
    intro m
    induction m using Nat.strong_induction_on with
    | _ m ihm =>
      intro st hn hm hinv
      cases hpop : popMin st.open_set with
      | none => exact (astar_no_empty hok hT hconn hinv (popMin_none hpop)).elim
      | some pr =>
        rcases pr with ⟨cur, rest⟩
        by_cases ht2 : cur.id = t
        · exact target_pop hok hT hinv hpop ht2
        · have hcur : cur ∈ st.open_set :=
            (popMin_perm hpop).mem_iff.mpr (List.mem_cons_self _ _)
          obtain ⟨gcur, hgcur, _⟩ := hinv.1.qgood cur hcur
          have hnodeS : (getNode graph cur.id).isSome := hinv.1.gdom2 cur.id _ hgcur
          obtain ⟨node, hnode⟩ := Option.isSome_iff_exists.mp hnodeS
          obtain ⟨hinv2, hprog⟩ := loop_iter hok hfin hinv hpop ht2 hnode hgcur
          set st2 : AStarState :=
            node.neighbors.foldl (relaxNeighbor graph t cur.id ((gcur : ℝ) : WithTop ℝ))
              ⟨rest, st.came_from, st.g_score⟩ with hst2
          rcases hprog with hlt | ⟨heqm, hltlen⟩
          · obtain ⟨fuel, res, hfl, hgood⟩ :=
              ihn (measureR graph s st2) (by omega) st2.open_set.length st2
                (le_refl _) (le_refl _) hinv2
            refine ⟨fuel + 1, res, ?_, hgood⟩
            rw [astarLoop_succ_else hpop ht2 hnode hgcur]
            exact hfl
          · obtain ⟨fuel, res, hfl, hgood⟩ :=
              ihm st2.open_set.length (by omega) st2 (by omega) (le_refl _) hinv2
            refine ⟨fuel + 1, res, ?_, hgood⟩
            rw [astarLoop_succ_else hpop ht2 hnode hgcur]
            exact hfl

/-- The state built by `find_path` before entering the loop satisfies the
loop invariant. -/
theorem initial_inv (hok : AStarGraphOK graph) (hS : (getNode graph s).isSome)
    {st0 : AStarState}
    (ho : st0.open_set = [⟨s, ((getDistance graph s t : ℝ) : WithTop ℝ)⟩])
    (hcf : st0.came_from = [])
    (hg : st0.g_score = massign (graph.map fun p => (p.1, (⊤ : WithTop ℝ))) s 0) :
    AInv graph s t st0 := by
  refine ⟨⟨?_, ?_, ?_, ?_, ?_, ?_, ?_, ?_, ?_, ?_, ?_⟩, ?_⟩
  · -- gdom
    intro nd hnd
    rw [hg]
    by_cases hk : nd.1 = s
    · rw [hk]
      exact ⟨0, mfind_massign_self _ _ _⟩
    · rw [mfind_massign_ne _ _ _ _ hk, mfind_map_top]
      have hmem := mfind_of_mem_nodup hok.keysNodup (show (nd.1, nd.2) ∈ graph from hnd)
      rw [hmem]
      exact ⟨⊤, rfl⟩
  · -- gdom2
    intro k c hc
    rw [hg] at hc
    by_cases hk : k = s
    · rw [hk]
      exact hS
    · rw [mfind_massign_ne _ _ _ _ hk, mfind_map_top] at hc
      show (mfind graph k).isSome
      cases hmk : mfind graph k with
      | none =>
        rw [hmk] at hc
        cases hc
      | some nd => rfl
  · -- gstart
    rw [hg]
    exact mfind_massign_self _ _ _
  · -- gnonneg
    intro k c hc
    rw [hg] at hc
    by_cases hk : k = s
    · rw [hk, mfind_massign_self] at hc
      have h2 : (0 : WithTop ℝ) = c := Option.some_injective _ hc
      rw [← h2]
    · rw [mfind_massign_ne _ _ _ _ hk, mfind_map_top] at hc
      cases hmk : mfind graph k with
      | none =>
        rw [hmk] at hc
        cases hc
      | some nd =>
        rw [hmk] at hc
        have h2 : (⊤ : WithTop ℝ) = c := Option.some_injective _ hc
        rw [← h2]
        exact le_top
  · -- gsp
    intro k c hc
    rw [hg] at hc ⊢
    by_cases hk : k = s
    · rw [hk] at hc ⊢
      rw [mfind_massign_self] at hc
      have hc0 : c = 0 := by
        have h2 : (0 : WithTop ℝ) = ((c : ℝ) : WithTop ℝ) := Option.some_injective _ hc
        exact_mod_cast h2.symm
      subst hc0
      refine ⟨[s], isPathFromTo_single s, List.nodup_singleton _, ?_, ?_⟩
      · rw [chainCost]
      · intro i hi
        have hi0 : i = 0 := by
          simp only [List.length_singleton] at hi
          omega
        subst hi0
        show gval (massign (graph.map fun p => (p.1, (⊤ : WithTop ℝ))) s 0) s ≤
          ((chainCost graph (List.take (0 + 1) [s]) : ℝ) : WithTop ℝ)
        rw [gval_massign_self]
        have h3 : chainCost graph (List.take (0 + 1) [s]) = 0 := rfl
        rw [h3]
        exact le_of_eq rfl
    · rw [mfind_massign_ne _ _ _ _ hk, mfind_map_top] at hc
      exfalso
      cases hmk : mfind graph k with
      | none =>
        rw [hmk] at hc
        cases hc
      | some nd =>
        rw [hmk] at hc
        exact WithTop.coe_ne_top (Option.some_injective _ hc).symm
  · -- qgood
    intro e he
    rw [ho] at he
    rcases List.mem_singleton.mp he with rfl
    rw [hg]
    refine ⟨0, mfind_massign_self _ _ _, ?_⟩
    show ((0 : ℝ) : WithTop ℝ) + hOf graph t s ≤ ((getDistance graph s t : ℝ) : WithTop ℝ)
    rw [hOf, coe_add_withTop]
    exact_mod_cast le_of_eq (zero_add _)
  · -- tcover
    intro c hc
    rw [hg] at hc
    by_cases hk : t = s
    · refine ⟨⟨s, ((getDistance graph s t : ℝ) : WithTop ℝ)⟩, ?_, hk.symm, ?_⟩
      · rw [ho]
        exact List.mem_singleton_self _
      · rw [hk, mfind_massign_self] at hc
        have hc0 : c = 0 := by
          have h2 : (0 : WithTop ℝ) = ((c : ℝ) : WithTop ℝ) := Option.some_injective _ hc
          exact_mod_cast h2.symm
        subst hc0
        show ((getDistance graph s t : ℝ) : WithTop ℝ) ≤
          ((0 : ℝ) : WithTop ℝ) + hOf graph t t
        rw [hOf, hk, coe_add_withTop]
        exact_mod_cast le_of_eq (zero_add _).symm
    · exfalso
      rw [mfind_massign_ne _ _ _ _ hk, mfind_map_top] at hc
      cases hmk : mfind graph t with
      | none =>
        rw [hmk] at hc
        cases hc
      | some nd =>
        rw [hmk] at hc
        exact WithTop.coe_ne_top (Option.some_injective _ hc).symm
  · -- cfedge
    intro k pk hpk
    rw [hcf] at hpk
    simp [mfind] at hpk
  · -- cfstart
    rw [hcf]
    rfl
  · -- cftotal
    intro k c hc hks
    exfalso
    rw [hg] at hc
    rw [mfind_massign_ne _ _ _ _ hks, mfind_map_top] at hc
    cases hmk : mfind graph k with
    | none =>
      rw [hmk] at hc
      cases hc
    | some nd =>
      rw [hmk] at hc
      exact WithTop.coe_ne_top (Option.some_injective _ hc).symm
  · -- cftime
    refine ⟨fun _ => 0, ?_⟩
    intro k pk w hpk
    rw [hcf] at hpk
    simp [mfind] at hpk
  · -- queue cover
    intro k c hc
    rw [hg] at hc
    by_cases hk : k = s
    · rw [hk] at hc ⊢
      rw [mfind_massign_self] at hc
      have hc0 : c = 0 := by
        have h2 : (0 : WithTop ℝ) = ((c : ℝ) : WithTop ℝ) := Option.some_injective _ hc
        exact_mod_cast h2.symm
      subst hc0
      left
      refine ⟨⟨s, ((getDistance graph s t : ℝ) : WithTop ℝ)⟩, ?_, rfl, ?_⟩
      · rw [ho]
        exact List.mem_singleton_self _
      · show ((getDistance graph s t : ℝ) : WithTop ℝ) ≤
          ((0 : ℝ) : WithTop ℝ) + hOf graph t s
        rw [hOf, coe_add_withTop]
        exact_mod_cast le_of_eq (zero_add _).symm
    · exfalso
      rw [mfind_massign_ne _ _ _ _ hk, mfind_map_top] at hc
      cases hmk : mfind graph k with
      | none =>
        rw [hmk] at hc
        cases hc
      | some nd =>
        rw [hmk] at hc
        exact WithTop.coe_ne_top (Option.some_injective _ hc).symm

/-- `find_path` with valid endpoints is the loop started from the initial
state. -/
theorem find_path_eq (hS : (getNode graph s).isSome) (hT : (getNode graph t).isSome)
    (fuel : ℕ) :
    find_path graph s t fuel = astarLoop graph s t fuel
      ⟨[⟨s, ((getDistance graph s t : ℝ) : WithTop ℝ)⟩], [],
        massign (graph.map fun p => (p.1, (⊤ : WithTop ℝ))) s 0⟩ := by
  have h1 : ¬(getNode graph s = none) := by
    intro h
    rw [h] at hS
    cases hS
  have h2 : ¬(getNode graph t = none) := by
    intro h
    rw [h] at hT
    cases hT
  simp only [find_path]
  rw [if_neg h1, if_neg h2]

/-- **C1** — For every navigation graph with `std::map` key structure,
non-negative edge costs, and an admissible Euclidean heuristic (every edge
cost at least the straight-line distance between its endpoints), and any
node ids `s` and `t` that exist in the graph and are connected by some
walk, `find_path` (run with enough loop fuel) returns a walk that starts
at `s`, ends at `t`, steps only along graph edges, and whose summed edge
costs are minimal over all walks from `s` to `t`. -/
theorem C1_find_path_optimal (hok : AStarGraphOK graph)
    (hS : (getNode graph s).isSome) (hT : (getNode graph t).isSome)
    (hconn : (walkCosts graph s t).Nonempty) :
    ∃ p, (∃ N, ∀ fuel, N ≤ fuel → find_path graph s t fuel = some p) ∧
      IsPathFromTo graph p s t ∧
      IsLeast (walkCosts graph s t) (chainCost graph p) := by
  have hfin := simpleCosts_finite hok hS
  have hinv0 : AInv graph s t
      ⟨[⟨s, ((getDistance graph s t : ℝ) : WithTop ℝ)⟩], [],
        massign (graph.map fun p => (p.1, (⊤ : WithTop ℝ))) s 0⟩ :=
    initial_inv hok hS rfl rfl rfl
  obtain ⟨fuel0, res, hloop, hgood⟩ := astarLoop_terminates hok hT hconn hfin _ hinv0
  refine ⟨res, ⟨fuel0, ?_⟩, hgood.1, hgood.2⟩
  intro fuel hfuel
  rw [find_path_eq hS hT fuel]
  have key : ∀ d : ℕ, astarLoop graph s t (fuel0 + d)
      ⟨[⟨s, ((getDistance graph s t : ℝ) : WithTop ℝ)⟩], [],
        massign (graph.map fun p => (p.1, (⊤ : WithTop ℝ))) s 0⟩ = some res := by
    intro d
    induction d with
    | zero => exact hloop
    | succ dd ih => exact astarLoop_mono (fuel0 + dd) _ ih
  have hd : fuel0 + (fuel - fuel0) = fuel := by omega
  rw [← hd]
  exact key (fuel - fuel0)

end AStarProof

/-- Witness for C1 on the concrete two-node graph: `A` and `B` exist, are
connected, the edge costs equal the Euclidean distances, and the claim's
conclusion holds for the resulting path. -/
theorem C1_find_path_optimal_witness :
    ∃ p, (∃ N, ∀ fuel, N ≤ fuel → find_path twoNodeGraph "A" "B" fuel = some p) ∧
      IsPathFromTo twoNodeGraph p "A" "B" ∧
      IsLeast (walkCosts twoNodeGraph "A" "B") (chainCost twoNodeGraph p) := by
  have hsqrt : Real.sqrt 25 = 5 := by
    rw [show (25 : ℝ) = 5 ^ 2 by norm_num]
    exact Real.sqrt_sq (by norm_num)
  apply C1_find_path_optimal
  · refine ⟨?_, ?_, ?_, ?_⟩
    · decide
    · intro nd hnd
      rcases List.mem_cons.mp hnd with rfl | h2
      · decide
      · rcases List.mem_singleton.mp h2 with rfl
        decide
    · intro nd hnd nb hnb
      rcases List.mem_cons.mp hnd with rfl | h2
      · rcases List.mem_singleton.mp hnb with rfl
        norm_num
      · rcases List.mem_singleton.mp h2 with rfl
        rcases List.mem_singleton.mp hnb with rfl
        norm_num
    · intro nd hnd nb hnb
      rcases List.mem_cons.mp hnd with rfl | h2
      · rcases List.mem_singleton.mp hnb with rfl
        refine ⟨_, rfl, ?_⟩
        have hgoal : Real.sqrt (((0 : ℝ) - 3) ^ 2 + ((0 : ℝ) - 4) ^ 2) ≤ 5 := by
          rw [show ((0 : ℝ) - 3) ^ 2 + ((0 : ℝ) - 4) ^ 2 = 25 by norm_num, hsqrt]
        exact hgoal
      · rcases List.mem_singleton.mp h2 with rfl
        rcases List.mem_singleton.mp hnb with rfl
        refine ⟨_, rfl, ?_⟩
        have hgoal : Real.sqrt (((3 : ℝ) - 0) ^ 2 + ((4 : ℝ) - 0) ^ 2) ≤ 5 := by
          rw [show ((3 : ℝ) - 0) ^ 2 + ((4 : ℝ) - 0) ^ 2 = 25 by norm_num, hsqrt]
        exact hgoal
  · rfl
  · rfl
  · refine ⟨5, ["A", "B"], ⟨?_, rfl, rfl, ?_⟩, ?_⟩
    · simp
    · exact ⟨rfl, trivial⟩
    · show (5 : ℝ) + 0 = 5
      norm_num

end
